import Mathlib

/-!
# Verification of the quick-pickle event reader

A shallow embedding, in Lean 4, of the pickle event decoder of
`tafia/quick-pickle` (`src/errors.rs`, `src/reader.rs`), together with
theorems checking the repository's specification against it.

Modelling conventions:

* A byte stream is a `List Nat`; real byte sources only produce values
  below 256, and multi-byte interpretations (`leNat`, `beNat`) reduce each
  byte modulo 256 so that decoded integer values are bounded exactly as
  the Rust `uN`/`iN` types are.
* Rust's `&mut self` / `&mut Vec<u8>` mutation is modelled by state
  passing: every operation returns the updated `Reader` and scratch
  buffer alongside its `Except` result, mirroring that a failed call in
  Rust still leaves its partial mutations in place.
* `Read::read_exact` on an in-memory source fails with `UnexpectedEof`
  when fewer bytes remain than requested; the model (`ioEof`) does the
  same and leaves the reader unconsumed on failure (the post-error reader
  state is unspecified in Rust and unobserved by every claim).
* The worker threads and the mpsc channel of `par_collect_events` are
  deterministic up to the drain order of the channel; the model fixes
  the canonical drain order (workers in spawn order, each worker's events
  in production order).  The position sort performed by the code makes
  the final result independent of the drain order whenever event
  positions are pairwise distinct, which holds on every stream covered
  by the equivalence theorem below.
* The two recursive decode loops are defined with an explicit fuel
  parameter (structural recursion, hence kernel-computable); fuel
  `length + 1` is proved sufficient and the fuel-free wrappers are
  defined by `Option.get` on that sufficiency proof.
-/

deriving instance DecidableEq for Except

namespace QuickPickle

/-- The error enumeration of `src/errors.rs` (as used by `src/reader.rs`:
`Protocol` carries the opcode byte of a failed payload parse, `OpCode` an
unrecognized opcode, `Str` a UTF-8 failure, `Io` an underlying I/O error —
on an in-memory source the only I/O failure is an unexpected end of
input). -/
inductive Error where
  | ioEof : Error
  | protocol : Nat → Error
  | opCode : Nat → Error
  | str : Error
deriving DecidableEq

set_option maxHeartbeats 1600000 in
/-- The `Event` enumeration of `src/reader.rs`.  Field types follow the
Rust ones: unsigned integers become `Nat`, signed ones `Int`.  `Float`
carries the IEEE-754 binary64 bit pattern as a `Nat` (the Rust `f64` is
determined by its bits; see `binary64Val` for the numeric reading). -/
inductive Event where
  | Proto (v : Nat)
  | Frame (len : Nat)
  | Mark | Stop | Pop | PopMark | Dup
  | None
  | Bool (b : Bool)
  | Int (v : Int)
  | BinInt (v : Int)
  | BinInt1 (v : Nat)
  | BinInt2 (v : Nat)
  | Long (v : Int)
  | Float (bits : Nat)
  | String (len : Nat)
  | BinString (len : Int)
  | ShortBinString (len : Nat)
  | Unicode (len : Nat)
  | BinUnicode (len : Int)
  | ShortBinUnicode (len : Nat)
  | BinUnicode8 (len : Int)
  | BinBytes (len : Int)
  | ShortBinBytes (len : Nat)
  | BinBytes8 (len : Nat)
  | ByteArray8 (len : Nat)
  | EmptyTuple | Tuple | Tuple1 | Tuple2 | Tuple3
  | EmptyList | List | Append | Appends
  | EmptyDict | Dict | SetItem | SetItems
  | EmptySet | AdditItems | FrozenSet
  | Get (id : Int)
  | BinGet (id : Nat)
  | LongBinGet (id : Nat)
  | Put (id : Int)
  | BinPut (id : Nat)
  | LongBinPut (id : Nat)
  | Memoize
  | Global (module_len : Nat) (name_len : Nat)
  | StackGlobal | Reduce | Build
  | Inst (module_len : Nat) (name_len : Nat)
  | Obj | NewObj | NewObjEx
  | PersId (id_len : Nat)
  | BinPersId
  | Ext1 (v : Nat) | Ext2 (v : Nat) | Ext4 (v : Nat)
  | NextBuffer | ReadonlyBuffer

/-- An injective `Nat` code on `Int`, for the decidable equality below. -/
def intCode : Int → Nat := fun i =>
  if 0 ≤ i then 2 * i.toNat else 2 * (-i - 1).toNat + 1

/-- The left inverse of `intCode`. -/
def intDecode : Nat → Int := fun n =>
  if n % 2 = 0 then ((n / 2 : Nat) : Int) else -((n / 2 : Nat) : Int) - 1

theorem intDecode_intCode (i : Int) : intDecode (intCode i) = i := by
  unfold intCode intDecode
  split
  · simp only [Nat.mul_mod_right, Nat.mul_div_cancel_left _ (by omega : 0 < 2),
      if_pos]
    omega
  · simp only [Nat.mul_add_mod, Nat.mul_add_div (by omega : 0 < 2)]
    norm_num
    omega

/-- An injective `Nat` code of an `Event`, giving a decidable equality
whose terms stay shallow. -/
def Event.code : Event → Nat
  | .Proto v => 0 + 128 * v
  | .Frame v => 1 + 128 * v
  | .Mark => 2
  | .Stop => 3
  | .Pop => 4
  | .PopMark => 5
  | .Dup => 6
  | .None => 7
  | .Bool v => 8 + 128 * (cond v 1 0)
  | .Int v => 9 + 128 * intCode v
  | .BinInt v => 10 + 128 * intCode v
  | .BinInt1 v => 11 + 128 * v
  | .BinInt2 v => 12 + 128 * v
  | .Long v => 13 + 128 * intCode v
  | .Float v => 14 + 128 * v
  | .String v => 15 + 128 * v
  | .BinString v => 16 + 128 * intCode v
  | .ShortBinString v => 17 + 128 * v
  | .Unicode v => 18 + 128 * v
  | .BinUnicode v => 19 + 128 * intCode v
  | .ShortBinUnicode v => 20 + 128 * v
  | .BinUnicode8 v => 21 + 128 * intCode v
  | .BinBytes v => 22 + 128 * intCode v
  | .ShortBinBytes v => 23 + 128 * v
  | .BinBytes8 v => 24 + 128 * v
  | .ByteArray8 v => 25 + 128 * v
  | .EmptyTuple => 26
  | .Tuple => 27
  | .Tuple1 => 28
  | .Tuple2 => 29
  | .Tuple3 => 30
  | .EmptyList => 31
  | .List => 32
  | .Append => 33
  | .Appends => 34
  | .EmptyDict => 35
  | .Dict => 36
  | .SetItem => 37
  | .SetItems => 38
  | .EmptySet => 39
  | .AdditItems => 40
  | .FrozenSet => 41
  | .Get v => 42 + 128 * intCode v
  | .BinGet v => 43 + 128 * v
  | .LongBinGet v => 44 + 128 * v
  | .Put v => 45 + 128 * intCode v
  | .BinPut v => 46 + 128 * v
  | .LongBinPut v => 47 + 128 * v
  | .Memoize => 48
  | .Global a b => 49 + 128 * Nat.pair a b
  | .StackGlobal => 50
  | .Reduce => 51
  | .Build => 52
  | .Inst a b => 53 + 128 * Nat.pair a b
  | .Obj => 54
  | .NewObj => 55
  | .NewObjEx => 56
  | .PersId v => 57 + 128 * v
  | .BinPersId => 58
  | .Ext1 v => 59 + 128 * v
  | .Ext2 v => 60 + 128 * v
  | .Ext4 v => 61 + 128 * v
  | .NextBuffer => 62
  | .ReadonlyBuffer => 63

/-- The left inverse of `Event.code`. -/
def Event.decode (n : Nat) : Event :=
  match n % 128 with
  | 0 => .Proto (n / 128)
  | 1 => .Frame (n / 128)
  | 2 => .Mark
  | 3 => .Stop
  | 4 => .Pop
  | 5 => .PopMark
  | 6 => .Dup
  | 7 => .None
  | 8 => .Bool (decide (n / 128 = 1))
  | 9 => .Int (intDecode (n / 128))
  | 10 => .BinInt (intDecode (n / 128))
  | 11 => .BinInt1 (n / 128)
  | 12 => .BinInt2 (n / 128)
  | 13 => .Long (intDecode (n / 128))
  | 14 => .Float (n / 128)
  | 15 => .String (n / 128)
  | 16 => .BinString (intDecode (n / 128))
  | 17 => .ShortBinString (n / 128)
  | 18 => .Unicode (n / 128)
  | 19 => .BinUnicode (intDecode (n / 128))
  | 20 => .ShortBinUnicode (n / 128)
  | 21 => .BinUnicode8 (intDecode (n / 128))
  | 22 => .BinBytes (intDecode (n / 128))
  | 23 => .ShortBinBytes (n / 128)
  | 24 => .BinBytes8 (n / 128)
  | 25 => .ByteArray8 (n / 128)
  | 26 => .EmptyTuple
  | 27 => .Tuple
  | 28 => .Tuple1
  | 29 => .Tuple2
  | 30 => .Tuple3
  | 31 => .EmptyList
  | 32 => .List
  | 33 => .Append
  | 34 => .Appends
  | 35 => .EmptyDict
  | 36 => .Dict
  | 37 => .SetItem
  | 38 => .SetItems
  | 39 => .EmptySet
  | 40 => .AdditItems
  | 41 => .FrozenSet
  | 42 => .Get (intDecode (n / 128))
  | 43 => .BinGet (n / 128)
  | 44 => .LongBinGet (n / 128)
  | 45 => .Put (intDecode (n / 128))
  | 46 => .BinPut (n / 128)
  | 47 => .LongBinPut (n / 128)
  | 48 => .Memoize
  | 49 => .Global (Nat.unpair (n / 128)).1 (Nat.unpair (n / 128)).2
  | 50 => .StackGlobal
  | 51 => .Reduce
  | 52 => .Build
  | 53 => .Inst (Nat.unpair (n / 128)).1 (Nat.unpair (n / 128)).2
  | 54 => .Obj
  | 55 => .NewObj
  | 56 => .NewObjEx
  | 57 => .PersId (n / 128)
  | 58 => .BinPersId
  | 59 => .Ext1 (n / 128)
  | 60 => .Ext2 (n / 128)
  | 61 => .Ext4 (n / 128)
  | 62 => .NextBuffer
  | 63 => .ReadonlyBuffer
  | _ => .Stop


theorem Event.decode_code : ∀ e : Event, Event.decode (Event.code e) = e := by
  intro e
  cases e <;>
    simp [Event.code, Event.decode, Nat.add_mul_mod_self_left,
      Nat.add_mul_div_left, intDecode_intCode, Nat.unpair_pair]
  all_goals (rename_i b; cases b <;> rfl)

instance : DecidableEq Event := fun a b =>
  decidable_of_iff (Event.code a = Event.code b)
    ⟨fun h => by
        have h2 := congrArg Event.decode h
        rwa [Event.decode_code, Event.decode_code] at h2,
      fun h => by rw [h]⟩

/-- `Reader<R>`: a byte source paired with its position cursor.  The
source is the list of bytes not yet consumed; `pos` is the global byte
offset of the next byte. -/
structure Reader where
  data : List Nat
  pos : Nat
deriving DecidableEq

/-- Little-endian value of a byte list (`uN::from_le_bytes`); each byte
is reduced modulo 256 as the wire type dictates. -/
def leNat : List Nat → Nat
  | [] => 0
  | b :: rest => b % 256 + 256 * leNat rest

/-- Big-endian value of a byte list (`f64::from_be_bytes` bit pattern). -/
def beNat : List Nat → Nat
  | [] => 0
  | b :: rest => (b % 256) * 256 ^ rest.length + beNat rest

/-- Two's-complement reading of a 4-byte little-endian value
(`i32::from_le_bytes`). -/
def i32val (bs : List Nat) : Int :=
  let v := leNat bs
  if v < 2 ^ 31 then (v : Int) else (v : Int) - 2 ^ 32

/-- Two's-complement reading of an 8-byte little-endian value
(`i64::from_le_bytes`). -/
def i64val (bs : List Nat) : Int :=
  let v := leNat bs
  if v < 2 ^ 63 then (v : Int) else (v : Int) - 2 ^ 64

/-- Rust's `as usize` cast of a signed value (64-bit target): reduce
modulo `2 ^ 64` into the naturals. -/
def castUsize (v : Int) : Nat := (v % (2 ^ 64 : Int)).toNat

/-- Rust's `as u32` cast of a signed value: reduce modulo `2 ^ 32`. -/
def castU32 (v : Int) : Nat := (v % (2 ^ 32 : Int)).toNat

/-- Accumulating decimal read: fails on the first non-digit byte. -/
def decDigitsAux : List Nat → Nat → Option Nat
  | [], acc => some acc
  | b :: rest, acc =>
    if 48 ≤ b ∧ b ≤ 57 then decDigitsAux rest (acc * 10 + (b - 48)) else none

/-- Value of a non-empty all-digits byte string, `none` otherwise. -/
def decDigits : List Nat → Option Nat
  | [] => none
  | s => decDigitsAux s 0

/-- Modelled from the spec: the `atoi` crate used for every decimal-text
payload (its manifest pin is not among the provided sources).  Per the
spec, a non-numeric payload is a parse failure — never truncated at the
first non-digit, never defaulted — so the model demands an optional
sign followed by a non-empty run of digits covering the whole slice. -/
def atoiSigned : List Nat → Option Int
  | 43 :: rest => (decDigits rest).map (fun n => (n : Int))
  | 45 :: rest => (decDigits rest).map (fun n => -(n : Int))
  | s => (decDigits s).map (fun n => (n : Int))

/-- Range check of the checked `atoi` parse: out-of-range is `none`. -/
def atoiChecked (lo hi : Int) (s : List Nat) : Option Int :=
  (atoiSigned s).bind (fun v => if lo ≤ v ∧ v ≤ hi then some v else none)

/-- `atoi::atoi::<i32>`. -/
def atoi_i32 (s : List Nat) : Option Int := atoiChecked (-(2 ^ 31)) (2 ^ 31 - 1) s

/-- `atoi::atoi::<i64>`. -/
def atoi_i64 (s : List Nat) : Option Int := atoiChecked (-(2 ^ 63)) (2 ^ 63 - 1) s

/-- UTF-8 validity (RFC 3629: no overlongs, no surrogates, max U+10FFFF),
the acceptance condition of `std::str::from_utf8`. -/
def validUtf8 : List Nat → Bool
  | [] => true
  | b :: rest =>
    if b ≤ 0x7F then validUtf8 rest
    else if 0xC2 ≤ b ∧ b ≤ 0xDF then
      match rest with
      | c1 :: r => (0x80 ≤ c1 && c1 ≤ 0xBF) && validUtf8 r
      | [] => false
    else if b = 0xE0 then
      match rest with
      | c1 :: c2 :: r =>
        (0xA0 ≤ c1 && c1 ≤ 0xBF) && (0x80 ≤ c2 && c2 ≤ 0xBF) && validUtf8 r
      | _ => false
    else if (0xE1 ≤ b ∧ b ≤ 0xEC) ∨ b = 0xEE ∨ b = 0xEF then
      match rest with
      | c1 :: c2 :: r =>
        (0x80 ≤ c1 && c1 ≤ 0xBF) && (0x80 ≤ c2 && c2 ≤ 0xBF) && validUtf8 r
      | _ => false
    else if b = 0xED then
      match rest with
      | c1 :: c2 :: r =>
        (0x80 ≤ c1 && c1 ≤ 0x9F) && (0x80 ≤ c2 && c2 ≤ 0xBF) && validUtf8 r
      | _ => false
    else if b = 0xF0 then
      match rest with
      | c1 :: c2 :: c3 :: r =>
        (0x90 ≤ c1 && c1 ≤ 0xBF) && (0x80 ≤ c2 && c2 ≤ 0xBF) &&
          (0x80 ≤ c3 && c3 ≤ 0xBF) && validUtf8 r
      | _ => false
    else if 0xF1 ≤ b ∧ b ≤ 0xF3 then
      match rest with
      | c1 :: c2 :: c3 :: r =>
        (0x80 ≤ c1 && c1 ≤ 0xBF) && (0x80 ≤ c2 && c2 ≤ 0xBF) &&
          (0x80 ≤ c3 && c3 ≤ 0xBF) && validUtf8 r
      | _ => false
    else if b = 0xF4 then
      match rest with
      | c1 :: c2 :: c3 :: r =>
        (0x80 ≤ c1 && c1 ≤ 0x8F) && (0x80 ≤ c2 && c2 ≤ 0xBF) &&
          (0x80 ≤ c3 && c3 ≤ 0xBF) && validUtf8 r
      | _ => false
    else false

/-- ASCII lower-casing of one byte. -/
def asciiLower (b : Nat) : Nat := if 65 ≤ b ∧ b ≤ 90 then b + 32 else b

/-- Split a leading run of ASCII digits off a byte string. -/
def spanDigits : List Nat → Nat × List Nat
  | [] => (0, [])
  | b :: r =>
    if 48 ≤ b ∧ b ≤ 57 then
      let x := spanDigits r
      (x.1 + 1, x.2)
    else (0, b :: r)

/-- A non-empty byte string consisting solely of ASCII digits. -/
def allDigits1 (s : List Nat) : Bool :=
  let x := spanDigits s
  decide (0 < x.1) && x.2.isEmpty

/-- Acceptance of the optional exponent tail of a Rust float literal:
empty, or `e`/`E`, an optional sign, and at least one digit. -/
def expPartOk : List Nat → Bool
  | [] => true
  | b :: r =>
    (b == 101 || b == 69) &&
      (match r with
       | 43 :: r2 => allDigits1 r2
       | 45 :: r2 => allDigits1 r2
       | _ => allDigits1 r)

/-- Acceptance of the numeric body of a Rust float literal:
`Digits ('.' Digits?)? Exp?` or `'.' Digits Exp?`. -/
def mantissaExpOk (s : List Nat) : Bool :=
  let x := spanDigits s
  match x.2 with
  | 46 :: r2 =>
    let y := spanDigits r2
    decide (0 < x.1 + y.1) && expPartOk y.2
  | r1 => decide (0 < x.1) && expPartOk r1

/-- Acceptance of `str::parse::<f64>` (the grammar of Rust's `FromStr`
for floats): an optional sign, then case-insensitive `inf`, `infinity`
or `nan`, or a decimal mantissa with optional exponent. -/
def isF64Lit (s : List Nat) : Bool :=
  let body := match s with
    | 43 :: r => r
    | 45 :: r => r
    | s => s
  let low := body.map asciiLower
  low == [105, 110, 102] || low == [105, 110, 102, 105, 110, 105, 116, 121] ||
    low == [110, 97, 110] || mantissaExpOk body

/-- Modelled from the spec: stands in for Rust's correctly rounded
decimal-to-binary64 conversion inside `str::parse::<f64>` (external to
the provided sources).  No claim depends on the numeric value of a
text-encoded float — only on whether the parse succeeds (`isF64Lit`) —
so the model keeps the accepted literal itself as the carrier. -/
def f64LitBits (s : List Nat) : Nat := beNat s

/-- `str::parse::<f64>` as used by the FLOAT (0x46) opcode: `none`
exactly on literals Rust rejects. -/
def parseF64 (s : List Nat) : Option Nat :=
  if isF64Lit s then some (f64LitBits s) else none

/-- The numeric (rational) value of an IEEE-754 binary64 bit pattern;
non-finite patterns (exponent 2047) have no finite value and are mapped
to 0, unused by the claims. -/
def binary64Val (bits : Nat) : ℚ :=
  let s : Nat := bits / 2 ^ 63 % 2
  let e : Nat := bits / 2 ^ 52 % 2 ^ 11
  let m : Nat := bits % 2 ^ 52
  let sign : ℚ := if s = 0 then 1 else -1
  if e = 0 then sign * m * ((2 : ℚ) ^ (-1074 : Int))
  else if e = 2047 then 0
  else sign * (2 ^ 52 + m) * ((2 : ℚ) ^ ((e : Int) - 1075))

/-! ## The reading primitives of `Reader<R>` (src/reader.rs lines 133-194)

Each primitive consumes from the front of `data` and advances `pos` by
the number of bytes consumed, exactly as the Rust methods do. -/

/-- `Read::read_exact` on an in-memory source: the requested bytes, or
`UnexpectedEof` when fewer remain (the reader is then left unconsumed;
Rust leaves the amount consumed unspecified, and no claim observes it). -/
def read_exact (n : Nat) (r : Reader) : Except Error (List Nat) × Reader :=
  if n ≤ r.data.length then (.ok (r.data.take n), ⟨r.data.drop n, r.pos + n⟩)
  else (.error .ioEof, r)

/-- The common shape of the seven fixed-width scalar readers: read
exactly `n` bytes and interpret them through `f`. -/
def readScalar {α : Type} (n : Nat) (f : List Nat → α) (r : Reader) :
    Except Error α × Reader :=
  match read_exact n r with
  | (.ok bs, r1) => (.ok (f bs), r1)
  | (.error e, r1) => (.error e, r1)

/-- `read_u8`. -/
def read_u8 (r : Reader) : Except Error Nat × Reader := readScalar 1 leNat r

/-- `read_u16` (little-endian). -/
def read_u16 (r : Reader) : Except Error Nat × Reader := readScalar 2 leNat r

/-- `read_u32` (little-endian). -/
def read_u32 (r : Reader) : Except Error Nat × Reader := readScalar 4 leNat r

/-- `read_i64` (little-endian, two's complement). -/
def read_i64 (r : Reader) : Except Error Int × Reader := readScalar 8 i64val r

/-- `read_u64` (little-endian). -/
def read_u64 (r : Reader) : Except Error Nat × Reader := readScalar 8 leNat r

/-- `read_f64`: an IEEE-754 double stored big-endian — the opposite
endianness from all the integers (a wire-format quirk kept exactly). -/
def read_f64 (r : Reader) : Except Error Nat × Reader := readScalar 8 beNat r

/-- `read_i32` (little-endian, two's complement). -/
def read_i32 (r : Reader) : Except Error Int × Reader := readScalar 4 i32val r

/-- `fill_buf`: resize the scratch buffer by `len` then read exactly
`len` bytes into the new tail.  On end-of-input the resize has already
happened, so the failed call leaves `len` fill bytes appended. -/
def fill_buf (len : Nat) (r : Reader) (buf : List Nat) :
    Except Error Unit × Reader × List Nat :=
  match read_exact len r with
  | (.ok bs, r1) => (.ok (), r1, buf ++ bs)
  | (.error e, r1) => (.error e, r1, buf ++ List.replicate len 0)

/-- The bytes `BufRead::read_until(b'\n')` consumes: everything up to
and including the first newline, or the whole remainder at end of
input.  Never an error on an in-memory source. -/
def lineSplit : List Nat → List Nat
  | [] => []
  | b :: rest => if b = 10 then [b] else b :: lineSplit rest

/-- `fill_line`: append one `\n`-terminated line (newline included, or
the whole remainder at end of input) to the buffer, returning the count
of bytes consumed. -/
def fill_line (r : Reader) (buf : List Nat) : Nat × Reader × List Nat :=
  let line := lineSplit r.data
  (line.length, ⟨r.data.drop line.length, r.pos + line.length⟩, buf ++ line)

/-- `frame_reader`: load `len` bytes eagerly into a private buffer and
build a child reader over them, seeded with the parent's position at
the frame's start so positions stay globally comparable. -/
def frame_reader (len : Nat) (r : Reader) : Except Error Reader × Reader :=
  let start := r.pos
  match fill_buf len r [] with
  | (.ok _, r1, frame_buf) => (.ok ⟨frame_buf, start⟩, r1)
  | (.error e, r1, _) => (.error e, r1)

/-! ## The opcode bodies of `read_event` (src/reader.rs lines 206-429)

One combinator per body shape; `decode_op` dispatches on the opcode byte
exactly as the Rust `match` does. -/

/-- An opcode with no trailing payload. -/
def evSimple (e : Event) (r : Reader) (buf : List Nat) :
    Except Error Event × Reader × List Nat :=
  (.ok e, r, buf)

/-- An opcode whose payload is one fixed-width scalar read. -/
def evFixed {α : Type} (rd : Reader → Except Error α × Reader) (mk : α → Event)
    (r : Reader) (buf : List Nat) : Except Error Event × Reader × List Nat :=
  match rd r with
  | (.ok v, r1) => (.ok (mk v), r1, buf)
  | (.error e, r1) => (.error e, r1, buf)

/-- A line-payload opcode whose event reports the line length and whose
bytes stay appended to the buffer (STRING, UNICODE, PERSID). -/
def evLine (mk : Nat → Event) (r : Reader) (buf : List Nat) :
    Except Error Event × Reader × List Nat :=
  match fill_line r buf with
  | (n, r1, b1) => (.ok (mk n), r1, b1)

/-- The INT (0x49) body: read a line into the buffer, special-case the
legacy boolean encodings before any integer parsing, and truncate the
buffer back on every `Ok` path (the `?` on a failed parse returns before
the truncation). -/
def evIntDec (r : Reader) (buf : List Nat) :
    Except Error Event × Reader × List Nat :=
  let start := buf.length
  match fill_line r buf with
  | (_, r1, b1) =>
    let s := b1.drop start
    if s = [48, 49] then (.ok (.Bool true), r1, b1.take start)
    else if s = [48, 48] then (.ok (.Bool false), r1, b1.take start)
    else
      match atoi_i32 s with
      | some v => (.ok (.Int v), r1, b1.take start)
      | none => (.error (.protocol 0x49), r1, b1)

/-- The LONG (0x4c) body: read a line, pop a trailing `L` from the
buffer if one is there (note the popped byte is whatever the buffer
ends with, newline included), parse, truncate on success. -/
def evLongDec (r : Reader) (buf : List Nat) :
    Except Error Event × Reader × List Nat :=
  let start := buf.length
  match fill_line r buf with
  | (_, r1, b1) =>
    let b2 := if b1.getLast? = some 76 then b1.dropLast else b1
    match atoi_i64 (b2.drop start) with
    | some v => (.ok (.Long v), r1, b2.take start)
    | none => (.error (.protocol 0x4c), r1, b2)

/-- The LONG1/LONG4 (0x8a/0x8b) body: a length prefix, that many raw
bytes into the buffer, parsed as decimal ASCII; truncate on success.
`code` is the opcode reported on a failed parse. -/
def evLongBin {α : Type} (code : Nat) (rdLen : Reader → Except Error α × Reader)
    (toCount : α → Nat) (r : Reader) (buf : List Nat) :
    Except Error Event × Reader × List Nat :=
  let start := buf.length
  match rdLen r with
  | (.error e, r1) => (.error e, r1, buf)
  | (.ok len, r1) =>
    match fill_buf (toCount len) r1 buf with
    | (.error e, r2, b2) => (.error e, r2, b2)
    | (.ok _, r2, b2) =>
      match atoi_i64 (b2.drop start) with
      | some v => (.ok (.Long v), r2, b2.take start)
      | none => (.error (.protocol code), r2, b2)

/-- The FLOAT (0x46) body: read a line, require UTF-8, parse as a Rust
float literal; truncate the buffer on success only. -/
def evFloatDec (r : Reader) (buf : List Nat) :
    Except Error Event × Reader × List Nat :=
  let start := buf.length
  match fill_line r buf with
  | (_, r1, b1) =>
    let s := b1.drop start
    if validUtf8 s then
      match parseF64 s with
      | some v => (.ok (.Float v), r1, b1.take start)
      | none => (.error (.protocol 0x46), r1, b1)
    else (.error .str, r1, b1)

/-- The GET/PUT (0x67/0x70) body: a decimal-text memo id on one line;
truncate the buffer on success only. -/
def evMemoDec (code : Nat) (mk : Int → Event) (r : Reader) (buf : List Nat) :
    Except Error Event × Reader × List Nat :=
  let start := buf.length
  match fill_line r buf with
  | (_, r1, b1) =>
    match atoi_i32 (b1.drop start) with
    | some v => (.ok (mk v), r1, b1.take start)
    | none => (.error (.protocol code), r1, b1)

/-- The GLOBAL/INST (0x63/0x69) body: two `\n`-terminated lines whose
bytes stay in the buffer; the event carries the two lengths as `u32`. -/
def evTwoLines (mk : Nat → Nat → Event) (r : Reader) (buf : List Nat) :
    Except Error Event × Reader × List Nat :=
  match fill_line r buf with
  | (n1, r1, b1) =>
    match fill_line r1 b1 with
    | (n2, r2, b2) => (.ok (mk (n1 % 2 ^ 32) (n2 % 2 ^ 32)), r2, b2)

/-- A length-prefixed string/bytes body: read the length, append that
many raw bytes to the buffer (they stay there), and report only the
length in the event. -/
def evLenData {α : Type} (rdLen : Reader → Except Error α × Reader)
    (toCount : α → Nat) (mk : α → Event) (r : Reader) (buf : List Nat) :
    Except Error Event × Reader × List Nat :=
  match rdLen r with
  | (.error e, r1) => (.error e, r1, buf)
  | (.ok len, r1) =>
    match fill_buf (toCount len) r1 buf with
    | (.error e, r2, b2) => (.error e, r2, b2)
    | (.ok _, r2, b2) => (.ok (mk len), r2, b2)

/-- The opcode dispatch of `read_event`, one arm per Rust `match` arm
(the opcode byte has already been consumed). -/
def decode_op (op : Nat) (r : Reader) (buf : List Nat) :
    Except Error Event × Reader × List Nat :=
  match op with
  | 0x80 => evFixed read_u8 Event.Proto r buf
  | 0x28 => evSimple Event.Mark r buf
  | 0x2e => evSimple Event.Stop r buf
  | 0x30 => evSimple Event.Pop r buf
  | 0x31 => evSimple Event.PopMark r buf
  | 0x32 => evSimple Event.Dup r buf
  | 0x4e => evSimple Event.None r buf
  | 0x88 => evSimple (Event.Bool true) r buf
  | 0x89 => evSimple (Event.Bool false) r buf
  | 0x49 => evIntDec r buf
  | 0x4a => evFixed read_i32 Event.BinInt r buf
  | 0x4b => evFixed read_u8 Event.BinInt1 r buf
  | 0x4d => evFixed read_u16 Event.BinInt2 r buf
  | 0x4c => evLongDec r buf
  | 0x8a => evLongBin 0x8a read_u8 id r buf
  | 0x8b => evLongBin 0x8a read_i32 castUsize r buf
  | 0x46 => evFloatDec r buf
  | 0x47 => evFixed read_f64 Event.Float r buf
  | 0x53 => evLine Event.String r buf
  | 0x54 => evLenData read_i32 castUsize Event.BinString r buf
  | 0x55 => evLenData read_u8 id Event.ShortBinString r buf
  | 0x56 => evLine Event.Unicode r buf
  | 0x58 => evLenData read_i32 castUsize Event.BinUnicode r buf
  | 0x8c => evLenData read_u8 id Event.ShortBinUnicode r buf
  | 0x8d => evLenData read_i64 castUsize Event.BinUnicode8 r buf
  | 0x42 => evLenData read_i32 castUsize Event.BinBytes r buf
  | 0x43 => evLenData read_u8 id Event.ShortBinBytes r buf
  | 0x8e => evLenData read_u64 id Event.BinBytes8 r buf
  | 0x96 => evLenData read_u64 id Event.ByteArray8 r buf
  | 0x29 => evSimple Event.EmptyTuple r buf
  | 0x74 => evSimple Event.Tuple r buf
  | 0x85 => evSimple Event.Tuple1 r buf
  | 0x86 => evSimple Event.Tuple2 r buf
  | 0x87 => evSimple Event.Tuple3 r buf
  | 0x5d => evSimple Event.EmptyList r buf
  | 0x6c => evSimple Event.List r buf
  | 0x61 => evSimple Event.Append r buf
  | 0x65 => evSimple Event.Appends r buf
  | 0x7d => evSimple Event.EmptyDict r buf
  | 0x64 => evSimple Event.Dict r buf
  | 0x73 => evSimple Event.SetItem r buf
  | 0x75 => evSimple Event.SetItems r buf
  | 0x8f => evSimple Event.EmptySet r buf
  | 0x90 => evSimple Event.AdditItems r buf
  | 0x91 => evSimple Event.FrozenSet r buf
  | 0x67 => evMemoDec 0x67 Event.Get r buf
  | 0x68 => evFixed read_u8 Event.BinGet r buf
  | 0x6a => evFixed read_i32 (fun v => Event.LongBinGet (castU32 v)) r buf
  | 0x70 => evMemoDec 0x70 Event.Put r buf
  | 0x71 => evFixed read_u8 Event.BinPut r buf
  | 0x72 => evFixed read_i32 (fun v => Event.LongBinPut (castU32 v)) r buf
  | 0x94 => evSimple Event.Memoize r buf
  | 0x63 => evTwoLines Event.Global r buf
  | 0x93 => evSimple Event.StackGlobal r buf
  | 0x52 => evSimple Event.Reduce r buf
  | 0x62 => evSimple Event.Build r buf
  | 0x69 => evTwoLines Event.Inst r buf
  | 0x6f => evSimple Event.Obj r buf
  | 0x81 => evSimple Event.NewObj r buf
  | 0x92 => evSimple Event.NewObjEx r buf
  | 0x50 => evLine Event.PersId r buf
  | 0x51 => evSimple Event.BinPersId r buf
  | 0x82 => evFixed read_u8 Event.Ext1 r buf
  | 0x83 => evFixed read_u16 Event.Ext2 r buf
  | 0x84 => evFixed read_u32 Event.Ext4 r buf
  | 0x95 => evFixed read_u64 Event.Frame r buf
  | 0x97 => evSimple Event.NextBuffer r buf
  | 0x98 => evSimple Event.ReadonlyBuffer r buf
  | _ => (.error (.opCode op), r, buf)

/-- `read_event` (src/reader.rs lines 196-430): read the opcode byte —
end of input exactly here is reinterpreted as an implicit `Stop`, any
other I/O failure propagates — then dispatch on the opcode. -/
def read_event (r : Reader) (buf : List Nat) :
    Except Error Event × Reader × List Nat :=
  match read_u8 r with
  | (.error .ioEof, r1) => (.ok .Stop, r1, buf)
  | (.error e, r1) => (.error e, r1, buf)
  | (.ok opcode, r1) => decode_op opcode r1 buf

/-! ## The parallel orchestrator `par_collect_events` (src/reader.rs 432-484)

The two decode loops are given an explicit fuel parameter; one unit of
fuel is spent per decoded event, and fuel `data.length + 1` is proved
sufficient below (every event but the terminal Stop consumes at least
its opcode byte).  Worker threads run to completion with no
inter-worker communication, so the value each one sends is exactly the
value the model computes for it inline. -/

/-- The spawn threshold for parallel frame decoding. -/
def FRAME_SPAWN_SIZE : Nat := 1024 * 128

/-- The frame length of a `Frame` event (the discriminating view used
in place of the Rust `match` arm `Event::Frame(len)`). -/
def frameLen? : Event → Option Nat
  | .Frame len => some len
  | _ => none

/-- The worker thread body: repeatedly decode events from the private
frame reader until a Stop (real, or synthesized at the end of the
private buffer — the `if let Event::Stop` break), clearing the private
scratch buffer after every event and tagging each event with the
running position; the terminal Stop is not forwarded.  The result is
the list this worker sends, in production order, or its first decode
error. -/
def worker_loop : Nat → Reader → List Nat →
    Option (Except Error (List (Nat × Event)))
  | 0, _, _ => none
  | fuel + 1, r, buf =>
    match read_event r buf with
    | (.error e, _, _) => some (.error e)
    | (.ok ev, r1, _) =>
      if ev = .Stop then some (.ok [])
      else
        match worker_loop fuel r1 [] with
        | none => none
        | some (.error e) => some (.error e)
        | some (.ok evs) => some (.ok ((r1.pos, ev) :: evs))

/-- The main loop of `par_collect_events`, generic in the spawn
threshold `T`: decode top-level events until Stop, clearing the scratch
buffer after every event; a `Frame(len)` with `len ≥ T` is loaded
eagerly via `frame_reader` and handed to a worker, a smaller frame is
skipped (its interior is decoded inline by this same loop); every other
event is recorded with its end position.  Returns the main thread's
`(position, event)` list and the workers' results in spawn order. -/
def main_loop : Nat → (Nat → Bool) → Reader → List Nat →
    Option (Except Error
      (List (Nat × Event) × List (Except Error (List (Nat × Event)))))
  | 0, _, _, _ => none
  | fuel + 1, T, r, buf =>
    match read_event r buf with
    | (.error e, _, _) => some (.error e)
    | (.ok ev, r1, _) =>
      if ev = .Stop then some (.ok ([], []))
      else
        match frameLen? ev with
        | some len =>
          if T len then
            match frame_reader len r1 with
            | (.error e, _) => some (.error e)
            | (.ok fr, r2) =>
              match worker_loop fuel fr [] with
              | none => none
              | some w =>
                match main_loop fuel T r2 [] with
                | none => none
                | some (.error e) => some (.error e)
                | some (.ok (evs, ws)) => some (.ok (evs, w :: ws))
          else main_loop fuel T r1 []
        | none =>
          match main_loop fuel T r1 [] with
          | none => none
          | some (.error e) => some (.error e)
          | some (.ok (evs, ws)) => some (.ok ((r1.pos, ev) :: evs, ws))

/-- The join loop: `for th in threads { th.join().unwrap()? }` returns
the first worker error in spawn order, if any. -/
def first_worker_error : List (Except Error (List (Nat × Event))) → Option Error
  | [] => none
  | .error e :: _ => some e
  | .ok _ :: rest => first_worker_error rest

/-- The canonical drain of the result channel: every worker's events,
workers in spawn order (reached only after the join loop found no
error; the position sort then makes the decode's output independent of
the real, nondeterministic drain order whenever positions are pairwise
distinct). -/
def worker_events : List (Except Error (List (Nat × Event))) → List (Nat × Event)
  | [] => []
  | .error _ :: rest => worker_events rest
  | .ok evs :: rest => evs ++ worker_events rest

/-- The sort key order of `events.sort_by_key(|(id, _)| *id)`. -/
def posLe (a b : Nat × Event) : Prop := a.1 ≤ b.1

instance : DecidableRel posLe := fun a b => Nat.decLe a.1 b.1

instance : IsTotal (Nat × Event) posLe := ⟨fun a b => Nat.le_total a.1 b.1⟩

instance : IsTrans (Nat × Event) posLe := ⟨fun _ _ _ h1 h2 => Nat.le_trans h1 h2⟩

/-- `sort_by_key` is a stable sort; insertion sort (inserting each
earlier element before later elements of equal key) is the canonical
stable sort and the model's stand-in. -/
def sort_by_pos (l : List (Nat × Event)) : List (Nat × Event) :=
  List.insertionSort posLe l

/-- The tail of `par_collect_events` after the main loop finishes:
with no spawned worker the main events are returned as produced;
otherwise join every worker (first error wins and discards everything),
drain the channel, and stable-sort all `(position, event)` pairs by
position.  Positions are stripped from the final output. -/
def par_collect_post
    (res : Except Error
      (List (Nat × Event) × List (Except Error (List (Nat × Event))))) :
    Except Error (List Event) :=
  match res with
  | .error e => .error e
  | .ok (events, threads) =>
    if threads.isEmpty then .ok (events.map Prod.snd)
    else
      match first_worker_error threads with
      | some e => .error e
      | none =>
        .ok ((sort_by_pos (events ++ worker_events threads)).map Prod.snd)

/-- The main loop at the sufficient fuel `data.length + 1` (sufficiency
is proved below: one fuel unit is spent per event and every event but
the last consumes at least its opcode byte; the `getD` fallback is never
taken). -/
def main_run (T : Nat → Bool) (r : Reader) :
    Except Error (List (Nat × Event) × List (Except Error (List (Nat × Event)))) :=
  (main_loop (r.data.length + 1) T r []).getD (.error .ioEof)

/-- A worker's result at the sufficient fuel `data.length + 1`. -/
def worker_run (r : Reader) : Except Error (List (Nat × Event)) :=
  (worker_loop (r.data.length + 1) r []).getD (.error .ioEof)

/-- The spawn decision `len >= T` of the Frame arm, as a predicate on
the declared frame length. -/
def spawns (T : Nat) : Nat → Bool := fun len => decide (T ≤ len)

/-- `par_collect_events`, generic in the spawn threshold. -/
def par_collect_gen (T : Nat) (s : List Nat) : Except Error (List Event) :=
  par_collect_post (main_run (spawns T) ⟨s, 0⟩)

/-- `par_collect_events`: the whole-stream parallel decode, at the
code's spawn threshold. -/
def par_collect_events (s : List Nat) : Except Error (List Event) :=
  par_collect_gen FRAME_SPAWN_SIZE s

/-- The spec's sequential reference decode: the same loop with the
spawn threshold raised to infinity — `2 ^ 64` exceeds every 8-byte
frame length, so no frame is ever spawned and every frame interior is
decoded inline on the main thread. -/
def seq_collect_events (s : List Nat) : Except Error (List Event) :=
  par_collect_post (main_run (fun _ => false) ⟨s, 0⟩)

/-! ## Well-formed streams

The decidable conditions under which the parallel decode agrees with
the sequential one.  A spawned frame is decoded against its private
copy of exactly `len` bytes, so a frame whose interior reads past its
declared end (or whose interior hides a Stop, or a Frame marker that
only the top-level loop would intercept) behaves differently inline. -/

/-- The opcodes whose payload is one `\n`-terminated line. -/
def lineOps : List Nat := [0x49, 0x4c, 0x46, 0x53, 0x56, 0x67, 0x70, 0x50]

/-- The opcodes whose payload is two `\n`-terminated lines. -/
def twoLineOps : List Nat := [0x63, 0x69]

/-- Boundary safety of one event against the data after its opcode
byte: a line read must find its newline inside the available data (at
end of data `read_until` silently returns a shorter line than the same
read over a longer stream would); every other payload is an exact byte
count and cannot straddle. -/
def opLinesOk (op : Nat) (payload : List Nat) : Bool :=
  if op ∈ lineOps then payload.contains 10
  else if op ∈ twoLineOps then decide (2 ≤ payload.count 10)
  else true

/-- Frame-interior well-formedness check, run over a frame's private
byte copy: every event must decode, must not be a Frame marker, and
must be boundary safe; the result reports how the interior ended —
`some false` for exhausting the frame exactly (synthesized Stop),
`some true` for an explicit Stop opcode, `none` for a rejected frame. -/
def wf_worker : Nat → Reader → Option Bool
  | 0, _ => none
  | fuel + 1, r =>
    match read_event r [] with
    | (.error _, _, _) => none
    | (.ok ev, r1, _) =>
      if ev = .Stop then
        match r.data with
        | [] => some false
        | op :: payload => if opLinesOk (op % 256) payload then some true else none
      else if (frameLen? ev).isSome then none
      else
        match r.data with
        | [] => none
        | op :: payload =>
          if opLinesOk (op % 256) payload then wf_worker fuel r1 else none

/-- Stream well-formedness for the spawn threshold `T`: every frame the
parallel decode would spawn must be fully present, its interior must
pass `wf_worker`, and an interior that ends at an explicit Stop must be
followed by an immediate top-level Stop (the sequential decode stops at
that explicit Stop, so nothing may follow it).  Frames below the
threshold and all other events are unconstrained. -/
def wf_main : Nat → (Nat → Bool) → Reader → Bool
  | 0, _, _ => false
  | fuel + 1, T, r =>
    match read_event r [] with
    | (.error _, _, _) => true
    | (.ok ev, r1, _) =>
      if ev = .Stop then true
      else
        match frameLen? ev with
        | some len =>
          if T len then
            if len ≤ r1.data.length then
              match wf_worker (len + 1) ⟨r1.data.take len, r1.pos⟩ with
              | none => false
              | some false => wf_main fuel T ⟨r1.data.drop len, r1.pos + len⟩
              | some true =>
                match read_event ⟨r1.data.drop len, r1.pos + len⟩ [] with
                | (.ok ev2, _, _) => ev2 = .Stop
                | _ => false
            else false
          else wf_main fuel T r1
        | none => wf_main fuel T r1

/-- Well-formedness of a whole stream for threshold `T`. -/
def wf_stream (T : Nat) (s : List Nat) : Bool :=
  wf_main (s.length + 1) (spawns T) ⟨s, 0⟩

/-! ## Facts about the reading primitives -/

/-- Successful reads consume from the front: the remaining data can
only shrink, and position plus remaining length is invariant. -/
def Shrinks (r r1 : Reader) : Prop :=
  r1.data.length ≤ r.data.length ∧ r1.pos + r1.data.length = r.pos + r.data.length

theorem shrinks_refl (r : Reader) : Shrinks r r := ⟨Nat.le_refl _, rfl⟩

theorem shrinks_trans {r1 r2 r3 : Reader} (h1 : Shrinks r1 r2)
    (h2 : Shrinks r2 r3) : Shrinks r1 r3 :=
  ⟨Nat.le_trans h2.1 h1.1, by have := h1.2; have := h2.2; omega⟩

theorem read_exact_eq_ok {n : Nat} {r : Reader} (h : n ≤ r.data.length) :
    read_exact n r = (.ok (r.data.take n), ⟨r.data.drop n, r.pos + n⟩) := by
  unfold read_exact; rw [if_pos h]

theorem read_exact_eq_err {n : Nat} {r : Reader} (h : r.data.length < n) :
    read_exact n r = (.error .ioEof, r) := by
  unfold read_exact; rw [if_neg (by omega)]

theorem readScalar_eq_ok {α : Type} {n : Nat} (f : List Nat → α) {r : Reader}
    (h : n ≤ r.data.length) :
    readScalar n f r = (.ok (f (r.data.take n)), ⟨r.data.drop n, r.pos + n⟩) := by
  unfold readScalar; rw [read_exact_eq_ok h]

theorem readScalar_eq_err {α : Type} {n : Nat} (f : List Nat → α) {r : Reader}
    (h : r.data.length < n) : readScalar n f r = (.error .ioEof, r) := by
  unfold readScalar; rw [read_exact_eq_err h]

theorem readScalar_ok {α : Type} {n : Nat} {f : List Nat → α} {r : Reader}
    {v : α} {r1 : Reader} (h : readScalar n f r = (.ok v, r1)) :
    n ≤ r.data.length ∧ v = f (r.data.take n) ∧ r1 = ⟨r.data.drop n, r.pos + n⟩ := by
  rcases le_or_lt n r.data.length with hn | hn
  · rw [readScalar_eq_ok f hn] at h
    simp only [Prod.mk.injEq, Except.ok.injEq] at h
    exact ⟨hn, h.1.symm, h.2.symm⟩
  · rw [readScalar_eq_err f hn] at h
    simp at h

theorem readScalar_shrinks {α : Type} {n : Nat} {f : List Nat → α} {r : Reader}
    {v : α} {r1 : Reader} (h : readScalar n f r = (.ok v, r1)) : Shrinks r r1 := by
  obtain ⟨hn, -, hr⟩ := readScalar_ok h
  subst hr
  simp only [Shrinks, List.length_drop]
  omega

theorem readScalar_append {α : Type} {n : Nat} (f : List Nat → α)
    {D R : List Nat} {p : Nat} {v : α} {D1 : List Nat} {p1 : Nat}
    (h : readScalar n f ⟨D, p⟩ = (.ok v, ⟨D1, p1⟩)) :
    readScalar n f ⟨D ++ R, p⟩ = (.ok v, ⟨D1 ++ R, p1⟩) := by
  obtain ⟨hn, hv, hr⟩ := readScalar_ok h
  simp only [Reader.mk.injEq] at hr
  obtain ⟨hD1, hp1⟩ := hr
  have hnD : n ≤ D.length := hn
  have hn' : n ≤ (D ++ R).length := by
    simp only [List.length_append]
    exact Nat.le_trans hnD (Nat.le_add_right _ _)
  have heq : readScalar n f ⟨D ++ R, p⟩ =
      (.ok (f ((D ++ R).take n)), ⟨(D ++ R).drop n, p + n⟩) :=
    readScalar_eq_ok f hn'
  rw [heq, List.take_append_of_le_length hnD, List.drop_append_of_le_length hnD]
  have hvD : v = f (D.take n) := hv
  have hD1' : D1 = D.drop n := hD1
  have hp1' : p1 = p + n := hp1
  rw [hvD, hD1', hp1']

theorem fill_buf_eq_ok {len : Nat} {r : Reader} {buf : List Nat}
    (h : len ≤ r.data.length) :
    fill_buf len r buf =
      (.ok (), ⟨r.data.drop len, r.pos + len⟩, buf ++ r.data.take len) := by
  unfold fill_buf; rw [read_exact_eq_ok h]

theorem fill_buf_eq_err {len : Nat} {r : Reader} {buf : List Nat}
    (h : r.data.length < len) :
    fill_buf len r buf = (.error .ioEof, r, buf ++ List.replicate len 0) := by
  unfold fill_buf; rw [read_exact_eq_err h]

theorem fill_buf_ok {len : Nat} {r : Reader} {buf : List Nat} {u : Unit}
    {r1 : Reader} {b1 : List Nat} (h : fill_buf len r buf = (.ok u, r1, b1)) :
    len ≤ r.data.length ∧ r1 = ⟨r.data.drop len, r.pos + len⟩ ∧
      b1 = buf ++ r.data.take len := by
  rcases le_or_lt len r.data.length with hn | hn
  · rw [fill_buf_eq_ok hn] at h
    simp only [Prod.mk.injEq] at h
    exact ⟨hn, h.2.1.symm, h.2.2.symm⟩
  · rw [fill_buf_eq_err hn] at h
    simp at h

theorem fill_buf_shrinks {len : Nat} {r : Reader} {buf : List Nat} {u : Unit}
    {r1 : Reader} {b1 : List Nat} (h : fill_buf len r buf = (.ok u, r1, b1)) :
    Shrinks r r1 := by
  obtain ⟨hn, hr, -⟩ := fill_buf_ok h
  subst hr
  simp only [Shrinks, List.length_drop]
  omega

theorem fill_buf_append {len : Nat} {D R : List Nat} {p : Nat} {buf : List Nat}
    {u : Unit} {D1 : List Nat} {p1 : Nat} {b1 : List Nat}
    (h : fill_buf len ⟨D, p⟩ buf = (.ok u, ⟨D1, p1⟩, b1)) :
    fill_buf len ⟨D ++ R, p⟩ buf = (.ok u, ⟨D1 ++ R, p1⟩, b1) := by
  obtain ⟨hn, hr, hb⟩ := fill_buf_ok h
  simp only [Reader.mk.injEq] at hr
  obtain ⟨hD1, hp1⟩ := hr
  have hnD : len ≤ D.length := hn
  have hn' : len ≤ (D ++ R).length := by
    simp only [List.length_append]
    exact Nat.le_trans hnD (Nat.le_add_right _ _)
  have heq : fill_buf len ⟨D ++ R, p⟩ buf =
      (.ok (), ⟨(D ++ R).drop len, p + len⟩, buf ++ (D ++ R).take len) :=
    fill_buf_eq_ok hn'
  rw [heq, List.take_append_of_le_length hnD, List.drop_append_of_le_length hnD]
  have hbD : b1 = buf ++ D.take len := hb
  have hD1' : D1 = D.drop len := hD1
  have hp1' : p1 = p + len := hp1
  rw [hbD, hD1', hp1']

/-! Facts about `lineSplit` / `fill_line`. -/

theorem lineSplit_length_le (l : List Nat) : (lineSplit l).length ≤ l.length := by
  induction l with
  | nil => simp [lineSplit]
  | cons b rest ih =>
    simp only [lineSplit]
    split
    · simp
    · simpa using ih

theorem lineSplit_eq_take (l : List Nat) :
    lineSplit l = l.take (lineSplit l).length := by
  induction l with
  | nil => simp [lineSplit]
  | cons b rest ih =>
    simp only [lineSplit]
    split
    · simp
    · simpa using ih

theorem lineSplit_append (D R : List Nat) :
    lineSplit (D ++ R) = if 10 ∈ D then lineSplit D else D ++ lineSplit R := by
  induction D with
  | nil => simp
  | cons b rest ih =>
    by_cases hb : b = 10
    · subst hb
      simp [lineSplit]
    · have h1 : lineSplit (b :: (rest ++ R)) = b :: lineSplit (rest ++ R) := by
        simp only [lineSplit, if_neg hb]
      rw [List.cons_append, h1, ih]
      have h2 : lineSplit (b :: rest) = b :: lineSplit rest := by
        simp only [lineSplit, if_neg hb]
      by_cases hm : 10 ∈ rest
      · rw [if_pos hm, if_pos (List.mem_cons_of_mem b hm), h2]
      · have hnm : ¬10 ∈ b :: rest := by
          intro hc
          rcases List.mem_cons.mp hc with h3 | h3
          · exact hb h3.symm
          · exact hm h3
        rw [if_neg hm, if_neg hnm, List.cons_append]

theorem lineSplit_of_not_mem {D : List Nat} (h : 10 ∉ D) : lineSplit D = D := by
  induction D with
  | nil => rfl
  | cons b rest ih =>
    have hb : ¬b = 10 := by
      intro hb
      exact h (by rw [hb]; exact List.mem_cons_self 10 rest)
    have h1 : lineSplit (b :: rest) = b :: lineSplit rest := by
      simp only [lineSplit, if_neg hb]
    rw [h1, ih (fun hm => h (List.mem_cons_of_mem b hm))]

theorem lineSplit_count {D : List Nat} (h : 10 ∈ D) :
    (lineSplit D).count 10 = 1 := by
  induction D with
  | nil => simp at h
  | cons b rest ih =>
    by_cases hb : b = 10
    · subst hb
      have h1 : lineSplit ((10 : Nat) :: rest) = [10] := by simp [lineSplit]
      rw [h1]
      rfl
    · have h1 : lineSplit (b :: rest) = b :: lineSplit rest := by
        simp only [lineSplit, if_neg hb]
      have hm : 10 ∈ rest := by
        rcases List.mem_cons.mp h with h1 | h1
        · exact absurd h1.symm hb
        · exact h1
      rw [h1, List.count_cons, ih hm]
      simp only [beq_iff_eq]
      rw [if_neg (fun hc => hb hc)]

theorem count_drop_lineSplit {D : List Nat} (h2 : 2 ≤ D.count 10) :
    10 ∈ D.drop (lineSplit D).length := by
  have hmem : 10 ∈ D := by
    by_contra hm
    rw [List.count_eq_zero_of_not_mem hm] at h2
    omega
  have hsplit : lineSplit D ++ D.drop (lineSplit D).length = D := by
    conv_rhs => rw [← List.take_append_drop (lineSplit D).length D]
    rw [← lineSplit_eq_take]
  have hcnt : D.count 10 = (lineSplit D).count 10 + (D.drop (lineSplit D).length).count 10 := by
    conv_lhs => rw [← hsplit]
    rw [List.count_append]
  rw [lineSplit_count hmem] at hcnt
  have : 1 ≤ (D.drop (lineSplit D).length).count 10 := by omega
  exact List.count_pos_iff.mp (by omega)

theorem fill_line_eq (r : Reader) (buf : List Nat) :
    fill_line r buf =
      ((lineSplit r.data).length,
        ⟨r.data.drop (lineSplit r.data).length, r.pos + (lineSplit r.data).length⟩,
        buf ++ lineSplit r.data) := rfl

theorem fill_line_shrinks {r r1 : Reader} {buf n b1}
    (h : fill_line r buf = (n, r1, b1)) : Shrinks r r1 := by
  rw [fill_line_eq] at h
  simp only [Prod.mk.injEq] at h
  obtain ⟨-, hr, -⟩ := h
  subst hr
  simp only [Shrinks, List.length_drop]
  have := lineSplit_length_le r.data
  omega

theorem fill_line_append {D R : List Nat} {p : Nat} {buf : List Nat}
    (h10 : 10 ∈ D) :
    fill_line ⟨D ++ R, p⟩ buf =
      ((lineSplit D).length,
        ⟨D.drop (lineSplit D).length ++ R, p + (lineSplit D).length⟩,
        buf ++ lineSplit D) := by
  rw [fill_line_eq]
  simp only
  rw [lineSplit_append, if_pos h10]
  rw [List.drop_append_of_le_length (lineSplit_length_le D)]

/-! ## Consumption facts for each opcode body: a successful decode only
ever consumes from the front of the reader. -/

theorem evSimple_shrinks {e : Event} {r : Reader} {buf : List Nat}
    {ev : Event} {r1 : Reader} {b1 : List Nat}
    (h : evSimple e r buf = (.ok ev, r1, b1)) : Shrinks r r1 := by
  unfold evSimple at h
  simp only [Prod.mk.injEq] at h
  exact h.2.1 ▸ shrinks_refl r

theorem evFixed_shrinks {α : Type} {rd : Reader → Except Error α × Reader}
    {mk : α → Event} {r : Reader} {buf : List Nat}
    {ev : Event} {r1 : Reader} {b1 : List Nat}
    (hrd : ∀ {v : α} {r' : Reader}, rd r = (.ok v, r') → Shrinks r r')
    (h : evFixed rd mk r buf = (.ok ev, r1, b1)) : Shrinks r r1 := by
  unfold evFixed at h
  rcases hx : rd r with ⟨res, r'⟩
  rw [hx] at h
  cases res with
  | ok v =>
    simp only [Prod.mk.injEq] at h
    exact h.2.1 ▸ hrd hx
  | error e => simp at h

theorem evLine_shrinks {mk : Nat → Event} {r : Reader} {buf : List Nat}
    {ev : Event} {r1 : Reader} {b1 : List Nat}
    (h : evLine mk r buf = (.ok ev, r1, b1)) : Shrinks r r1 := by
  unfold evLine at h
  rcases hx : fill_line r buf with ⟨n, r', b'⟩
  rw [hx] at h
  simp only [Prod.mk.injEq] at h
  exact h.2.1 ▸ fill_line_shrinks hx

theorem evIntDec_shrinks {r : Reader} {buf : List Nat}
    {ev : Event} {r1 : Reader} {b1 : List Nat}
    (h : evIntDec r buf = (.ok ev, r1, b1)) : Shrinks r r1 := by
  unfold evIntDec at h
  rcases hx : fill_line r buf with ⟨n, r', b'⟩
  rw [hx] at h
  simp only at h
  have hs := fill_line_shrinks hx
  split at h
  · simp only [Prod.mk.injEq] at h
    exact h.2.1 ▸ hs
  · split at h
    · simp only [Prod.mk.injEq] at h
      exact h.2.1 ▸ hs
    · split at h
      · simp only [Prod.mk.injEq] at h
        exact h.2.1 ▸ hs
      · simp at h

theorem evLongDec_shrinks {r : Reader} {buf : List Nat}
    {ev : Event} {r1 : Reader} {b1 : List Nat}
    (h : evLongDec r buf = (.ok ev, r1, b1)) : Shrinks r r1 := by
  unfold evLongDec at h
  rcases hx : fill_line r buf with ⟨n, r', b'⟩
  rw [hx] at h
  simp only at h
  have hs := fill_line_shrinks hx
  split at h
  · simp only [Prod.mk.injEq] at h
    exact h.2.1 ▸ hs
  · simp at h

theorem evFloatDec_shrinks {r : Reader} {buf : List Nat}
    {ev : Event} {r1 : Reader} {b1 : List Nat}
    (h : evFloatDec r buf = (.ok ev, r1, b1)) : Shrinks r r1 := by
  unfold evFloatDec at h
  rcases hx : fill_line r buf with ⟨n, r', b'⟩
  rw [hx] at h
  simp only at h
  have hs := fill_line_shrinks hx
  split at h
  · split at h
    · simp only [Prod.mk.injEq] at h
      exact h.2.1 ▸ hs
    · simp at h
  · simp at h

theorem evMemoDec_shrinks {code : Nat} {mk : Int → Event} {r : Reader}
    {buf : List Nat} {ev : Event} {r1 : Reader} {b1 : List Nat}
    (h : evMemoDec code mk r buf = (.ok ev, r1, b1)) : Shrinks r r1 := by
  unfold evMemoDec at h
  rcases hx : fill_line r buf with ⟨n, r', b'⟩
  rw [hx] at h
  simp only at h
  have hs := fill_line_shrinks hx
  split at h
  · simp only [Prod.mk.injEq] at h
    exact h.2.1 ▸ hs
  · simp at h

theorem evTwoLines_shrinks {mk : Nat → Nat → Event} {r : Reader}
    {buf : List Nat} {ev : Event} {r1 : Reader} {b1 : List Nat}
    (h : evTwoLines mk r buf = (.ok ev, r1, b1)) : Shrinks r r1 := by
  unfold evTwoLines at h
  rcases hx : fill_line r buf with ⟨n, r', b'⟩
  rw [hx] at h
  simp only at h
  rcases hy : fill_line r' b' with ⟨n2, r'', b''⟩
  rw [hy] at h
  simp only [Prod.mk.injEq] at h
  exact h.2.1 ▸ shrinks_trans (fill_line_shrinks hx) (fill_line_shrinks hy)

theorem evLongBin_shrinks {α : Type} {code : Nat}
    {rdLen : Reader → Except Error α × Reader} {toCount : α → Nat}
    {r : Reader} {buf : List Nat} {ev : Event} {r1 : Reader} {b1 : List Nat}
    (hrd : ∀ {v : α} {r' : Reader}, rdLen r = (.ok v, r') → Shrinks r r')
    (h : evLongBin code rdLen toCount r buf = (.ok ev, r1, b1)) : Shrinks r r1 := by
  unfold evLongBin at h
  rcases hx : rdLen r with ⟨res, r'⟩
  rw [hx] at h
  cases res with
  | error e => simp at h
  | ok v =>
    simp only at h
    rcases hy : fill_buf (toCount v) r' buf with ⟨res2, r'', b''⟩
    rw [hy] at h
    cases res2 with
    | error e => simp at h
    | ok u =>
      simp only at h
      have hs := shrinks_trans (hrd hx) (fill_buf_shrinks hy)
      split at h
      · simp only [Prod.mk.injEq] at h
        exact h.2.1 ▸ hs
      · simp at h

theorem evLenData_shrinks {α : Type}
    {rdLen : Reader → Except Error α × Reader} {toCount : α → Nat}
    {mk : α → Event} {r : Reader} {buf : List Nat}
    {ev : Event} {r1 : Reader} {b1 : List Nat}
    (hrd : ∀ {v : α} {r' : Reader}, rdLen r = (.ok v, r') → Shrinks r r')
    (h : evLenData rdLen toCount mk r buf = (.ok ev, r1, b1)) : Shrinks r r1 := by
  unfold evLenData at h
  rcases hx : rdLen r with ⟨res, r'⟩
  rw [hx] at h
  cases res with
  | error e => simp at h
  | ok v =>
    simp only at h
    rcases hy : fill_buf (toCount v) r' buf with ⟨res2, r'', b''⟩
    rw [hy] at h
    cases res2 with
    | error e => simp at h
    | ok u =>
      simp only [Prod.mk.injEq] at h
      exact h.2.1 ▸ shrinks_trans (hrd hx) (fill_buf_shrinks hy)

set_option maxHeartbeats 3200000 in
/-- Every successful opcode body only consumes from the front. -/
theorem decode_op_shrinks {op : Nat} {r : Reader} {buf : List Nat}
    {ev : Event} {r1 : Reader} {b1 : List Nat}
    (h : decode_op op r buf = (.ok ev, r1, b1)) : Shrinks r r1 := by
  unfold decode_op at h
  split at h
  all_goals
    first
    | exact evSimple_shrinks h
    | exact evFixed_shrinks (fun hx => readScalar_shrinks hx) h
    | exact evLine_shrinks h
    | exact evIntDec_shrinks h
    | exact evLongDec_shrinks h
    | exact evFloatDec_shrinks h
    | exact evMemoDec_shrinks h
    | exact evTwoLines_shrinks h
    | exact evLongBin_shrinks (fun hx => readScalar_shrinks hx) h
    | exact evLenData_shrinks (fun hx => readScalar_shrinks hx) h
    | simp at h

/-! ## Basic facts about `read_event` -/

theorem readScalar_err {α : Type} {n : Nat} {f : List Nat → α} {r : Reader}
    {e : Error} {r1 : Reader} (h : readScalar n f r = (.error e, r1)) :
    e = .ioEof ∧ r1 = r ∧ r.data.length < n := by
  rcases le_or_lt n r.data.length with hn | hn
  · rw [readScalar_eq_ok f hn] at h
    simp at h
  · rw [readScalar_eq_err f hn] at h
    simp only [Prod.mk.injEq, Except.error.injEq] at h
    exact ⟨h.1.symm, h.2.symm, hn⟩

/-- End of input exactly where the next opcode byte is expected
synthesizes a Stop and consumes nothing. -/
theorem read_event_nil (p : Nat) (buf : List Nat) :
    read_event ⟨[], p⟩ buf = (.ok .Stop, ⟨[], p⟩, buf) := rfl

/-- A successful `read_event` only consumes from the front, and on a
non-empty reader it consumes at least the opcode byte. -/
theorem read_event_ok_shrinks {r : Reader} {buf : List Nat} {ev : Event}
    {r1 : Reader} {b1 : List Nat}
    (h : read_event r buf = (.ok ev, r1, b1)) :
    Shrinks r r1 ∧ (r.data ≠ [] → r1.data.length < r.data.length) := by
  unfold read_event at h
  rcases hx : read_u8 r with ⟨res, r'⟩
  rw [hx] at h
  cases res with
  | error e =>
    obtain ⟨he, hr, hlen⟩ := readScalar_err hx
    subst he
    simp only [Prod.mk.injEq] at h
    obtain ⟨-, hr1, -⟩ := h
    constructor
    · exact hr1 ▸ hr ▸ shrinks_refl r
    · intro hne
      exfalso
      cases hd : r.data with
      | nil => exact hne hd
      | cons a l => rw [hd] at hlen; simp at hlen
  | ok op =>
    obtain ⟨hlen, -, hr'⟩ := readScalar_ok hx
    have hshr : Shrinks r r' := readScalar_shrinks hx
    have hs2 : Shrinks r' r1 := decode_op_shrinks h
    refine ⟨shrinks_trans hshr hs2, fun hne => ?_⟩
    have hlt : r'.data.length < r.data.length := by
      rw [hr']
      simp only [List.length_drop]
      omega
    exact Nat.lt_of_le_of_lt hs2.1 hlt

/-- The opcode byte a successful non-synthesized decode dispatched on. -/
theorem read_event_cons {b : Nat} {payload : List Nat} {p : Nat} {buf : List Nat} :
    read_event ⟨b :: payload, p⟩ buf =
      decode_op (b % 256) ⟨payload, p + 1⟩ buf := by
  unfold read_event read_u8
  rw [readScalar_eq_ok leNat (by simp)]
  simp [leNat]

/-! ## Locality: a decode that succeeded against a frame's private byte
copy behaves identically against the same bytes followed by the rest of
the stream, provided every line read found its newline (`opLinesOk`);
exact-byte-count reads are local unconditionally. -/

theorem evSimple_append {e : Event} {D R : List Nat} {p : Nat}
    {buf : List Nat} {ev : Event} {D1 : List Nat} {p1 : Nat} {b1 : List Nat}
    (h : evSimple e ⟨D, p⟩ buf = (.ok ev, ⟨D1, p1⟩, b1)) :
    evSimple e ⟨D ++ R, p⟩ buf = (.ok ev, ⟨D1 ++ R, p1⟩, b1) := by
  unfold evSimple at h ⊢
  simp only [Prod.mk.injEq, Reader.mk.injEq] at h
  obtain ⟨hev, ⟨hD, hp⟩, hb⟩ := h
  rw [hev, hb, ← hD, ← hp]

theorem evFixed_append {α : Type} {rd : Reader → Except Error α × Reader}
    {mk : α → Event} {D R : List Nat} {p : Nat} {buf : List Nat}
    {ev : Event} {D1 : List Nat} {p1 : Nat} {b1 : List Nat}
    (hext : ∀ {v : α} {E : List Nat} {q : Nat},
      rd ⟨D, p⟩ = (.ok v, ⟨E, q⟩) → rd ⟨D ++ R, p⟩ = (.ok v, ⟨E ++ R, q⟩))
    (h : evFixed rd mk ⟨D, p⟩ buf = (.ok ev, ⟨D1, p1⟩, b1)) :
    evFixed rd mk ⟨D ++ R, p⟩ buf = (.ok ev, ⟨D1 ++ R, p1⟩, b1) := by
  unfold evFixed at h ⊢
  rcases hx : rd ⟨D, p⟩ with ⟨res, r'⟩
  rw [hx] at h
  cases res with
  | error e => simp at h
  | ok v =>
    obtain ⟨E, q⟩ := r'
    simp only [Prod.mk.injEq, Reader.mk.injEq] at h
    obtain ⟨hev, ⟨hD, hp⟩, hb⟩ := h
    rw [hext hx]
    simp only
    rw [hev, hb, ← hD, ← hp]

theorem evLenData_append {α : Type} {rdLen : Reader → Except Error α × Reader}
    {toCount : α → Nat} {mk : α → Event} {D R : List Nat} {p : Nat}
    {buf : List Nat} {ev : Event} {D1 : List Nat} {p1 : Nat} {b1 : List Nat}
    (hext : ∀ {v : α} {E : List Nat} {q : Nat},
      rdLen ⟨D, p⟩ = (.ok v, ⟨E, q⟩) → rdLen ⟨D ++ R, p⟩ = (.ok v, ⟨E ++ R, q⟩))
    (h : evLenData rdLen toCount mk ⟨D, p⟩ buf = (.ok ev, ⟨D1, p1⟩, b1)) :
    evLenData rdLen toCount mk ⟨D ++ R, p⟩ buf = (.ok ev, ⟨D1 ++ R, p1⟩, b1) := by
  unfold evLenData at h ⊢
  rcases hx : rdLen ⟨D, p⟩ with ⟨res, r'⟩
  rw [hx] at h
  cases res with
  | error e => simp at h
  | ok v =>
    obtain ⟨E, q⟩ := r'
    simp only at h
    rcases hy : fill_buf (toCount v) ⟨E, q⟩ buf with ⟨res2, r'', b''⟩
    rw [hy] at h
    cases res2 with
    | error e => simp at h
    | ok u =>
      obtain ⟨E2, q2⟩ := r''
      simp only [Prod.mk.injEq, Reader.mk.injEq] at h
      obtain ⟨hev, ⟨hD, hp⟩, hb⟩ := h
      rw [hext hx]
      simp only
      rw [fill_buf_append hy]
      simp only
      rw [hev, hb, ← hD, ← hp]

theorem evLongBin_append {α : Type} {code : Nat}
    {rdLen : Reader → Except Error α × Reader} {toCount : α → Nat}
    {D R : List Nat} {p : Nat} {buf : List Nat}
    {ev : Event} {D1 : List Nat} {p1 : Nat} {b1 : List Nat}
    (hext : ∀ {v : α} {E : List Nat} {q : Nat},
      rdLen ⟨D, p⟩ = (.ok v, ⟨E, q⟩) → rdLen ⟨D ++ R, p⟩ = (.ok v, ⟨E ++ R, q⟩))
    (h : evLongBin code rdLen toCount ⟨D, p⟩ buf = (.ok ev, ⟨D1, p1⟩, b1)) :
    evLongBin code rdLen toCount ⟨D ++ R, p⟩ buf = (.ok ev, ⟨D1 ++ R, p1⟩, b1) := by
  unfold evLongBin at h ⊢
  rcases hx : rdLen ⟨D, p⟩ with ⟨res, r'⟩
  rw [hx] at h
  cases res with
  | error e => simp at h
  | ok v =>
    obtain ⟨E, q⟩ := r'
    simp only at h
    rcases hy : fill_buf (toCount v) ⟨E, q⟩ buf with ⟨res2, r'', b''⟩
    rw [hy] at h
    cases res2 with
    | error e => simp at h
    | ok u =>
      obtain ⟨E2, q2⟩ := r''
      simp only at h
      rw [hext hx]
      simp only
      rw [fill_buf_append hy]
      simp only
      split at h
      · next v2 hv2 =>
        simp only [Prod.mk.injEq, Reader.mk.injEq] at h
        obtain ⟨hev, ⟨hD, hp⟩, hb⟩ := h
        rw [hev, hb, ← hD, ← hp]
      · simp at h

theorem evLine_append {mk : Nat → Event} {D R : List Nat} {p : Nat}
    {buf : List Nat} {ev : Event} {D1 : List Nat} {p1 : Nat} {b1 : List Nat}
    (h10 : 10 ∈ D)
    (h : evLine mk ⟨D, p⟩ buf = (.ok ev, ⟨D1, p1⟩, b1)) :
    evLine mk ⟨D ++ R, p⟩ buf = (.ok ev, ⟨D1 ++ R, p1⟩, b1) := by
  unfold evLine at h ⊢
  rw [fill_line_eq] at h
  rw [fill_line_append h10]
  simp only at h ⊢
  simp only [Prod.mk.injEq, Reader.mk.injEq] at h
  obtain ⟨hev, ⟨hD, hp⟩, hb⟩ := h
  rw [hev, hb, ← hD, ← hp]

theorem evIntDec_append {D R : List Nat} {p : Nat}
    {buf : List Nat} {ev : Event} {D1 : List Nat} {p1 : Nat} {b1 : List Nat}
    (h10 : 10 ∈ D)
    (h : evIntDec ⟨D, p⟩ buf = (.ok ev, ⟨D1, p1⟩, b1)) :
    evIntDec ⟨D ++ R, p⟩ buf = (.ok ev, ⟨D1 ++ R, p1⟩, b1) := by
  unfold evIntDec at h ⊢
  rw [fill_line_eq] at h
  rw [fill_line_append h10]
  simp only at h ⊢
  split at h
  · next hc =>
    rw [if_pos hc]
    simp only [Prod.mk.injEq, Reader.mk.injEq] at h
    obtain ⟨hev, ⟨hD, hp⟩, hb⟩ := h
    rw [hev, hb, ← hD, ← hp]
  · next hc =>
    rw [if_neg hc]
    split at h
    · next hc2 =>
      rw [if_pos hc2]
      simp only [Prod.mk.injEq, Reader.mk.injEq] at h
      obtain ⟨hev, ⟨hD, hp⟩, hb⟩ := h
      rw [hev, hb, ← hD, ← hp]
    · next hc2 =>
      rw [if_neg hc2]
      split at h
      · next v hv =>
        simp only [Prod.mk.injEq, Reader.mk.injEq] at h
        obtain ⟨hev, ⟨hD, hp⟩, hb⟩ := h
        rw [hev, hb, ← hD, ← hp]
      · simp at h

theorem evLongDec_append {D R : List Nat} {p : Nat}
    {buf : List Nat} {ev : Event} {D1 : List Nat} {p1 : Nat} {b1 : List Nat}
    (h10 : 10 ∈ D)
    (h : evLongDec ⟨D, p⟩ buf = (.ok ev, ⟨D1, p1⟩, b1)) :
    evLongDec ⟨D ++ R, p⟩ buf = (.ok ev, ⟨D1 ++ R, p1⟩, b1) := by
  unfold evLongDec at h ⊢
  rw [fill_line_eq] at h
  rw [fill_line_append h10]
  simp only at h ⊢
  split at h
  · next v hv =>
    simp only [Prod.mk.injEq, Reader.mk.injEq] at h
    obtain ⟨hev, ⟨hD, hp⟩, hb⟩ := h
    rw [hev, hb, ← hD, ← hp]
  · simp at h

theorem evFloatDec_append {D R : List Nat} {p : Nat}
    {buf : List Nat} {ev : Event} {D1 : List Nat} {p1 : Nat} {b1 : List Nat}
    (h10 : 10 ∈ D)
    (h : evFloatDec ⟨D, p⟩ buf = (.ok ev, ⟨D1, p1⟩, b1)) :
    evFloatDec ⟨D ++ R, p⟩ buf = (.ok ev, ⟨D1 ++ R, p1⟩, b1) := by
  unfold evFloatDec at h ⊢
  rw [fill_line_eq] at h
  rw [fill_line_append h10]
  simp only at h ⊢
  split at h
  · next hc =>
    rw [if_pos hc]
    split at h
    · next v hv =>
      simp only [Prod.mk.injEq, Reader.mk.injEq] at h
      obtain ⟨hev, ⟨hD, hp⟩, hb⟩ := h
      rw [hev, hb, ← hD, ← hp]
    · simp at h
  · simp at h

theorem evMemoDec_append {code : Nat} {mk : Int → Event} {D R : List Nat}
    {p : Nat} {buf : List Nat} {ev : Event} {D1 : List Nat} {p1 : Nat}
    {b1 : List Nat} (h10 : 10 ∈ D)
    (h : evMemoDec code mk ⟨D, p⟩ buf = (.ok ev, ⟨D1, p1⟩, b1)) :
    evMemoDec code mk ⟨D ++ R, p⟩ buf = (.ok ev, ⟨D1 ++ R, p1⟩, b1) := by
  unfold evMemoDec at h ⊢
  rw [fill_line_eq] at h
  rw [fill_line_append h10]
  simp only at h ⊢
  split at h
  · next v hv =>
    simp only [Prod.mk.injEq, Reader.mk.injEq] at h
    obtain ⟨hev, ⟨hD, hp⟩, hb⟩ := h
    rw [hev, hb, ← hD, ← hp]
  · simp at h

theorem evTwoLines_append {mk : Nat → Nat → Event} {D R : List Nat}
    {p : Nat} {buf : List Nat} {ev : Event} {D1 : List Nat} {p1 : Nat}
    {b1 : List Nat} (hcnt : 2 ≤ D.count 10)
    (h : evTwoLines mk ⟨D, p⟩ buf = (.ok ev, ⟨D1, p1⟩, b1)) :
    evTwoLines mk ⟨D ++ R, p⟩ buf = (.ok ev, ⟨D1 ++ R, p1⟩, b1) := by
  have h10 : 10 ∈ D := by
    by_contra hm
    rw [List.count_eq_zero_of_not_mem hm] at hcnt
    omega
  have h10b : 10 ∈ D.drop (lineSplit D).length := count_drop_lineSplit hcnt
  unfold evTwoLines at h ⊢
  rw [fill_line_eq] at h
  simp only at h
  rw [fill_line_eq] at h
  simp only at h
  rw [fill_line_append h10]
  simp only
  rw [fill_line_append h10b]
  simp only
  simp only [Prod.mk.injEq, Reader.mk.injEq] at h
  obtain ⟨hev, ⟨hD, hp⟩, hb⟩ := h
  rw [hev, hb, ← hD, ← hp]

theorem opLinesOk_one {op : Nat} {payload : List Nat} (hmem : op ∈ lineOps)
    (h : opLinesOk op payload = true) : 10 ∈ payload := by
  unfold opLinesOk at h
  rw [if_pos hmem] at h
  simpa using h

theorem opLinesOk_two {op : Nat} {payload : List Nat} (hmem : op ∈ twoLineOps)
    (hnot : op ∉ lineOps) (h : opLinesOk op payload = true) :
    2 ≤ payload.count 10 := by
  unfold opLinesOk at h
  rw [if_neg hnot, if_pos hmem] at h
  simpa using h

set_option maxHeartbeats 3200000 in
/-- Locality of one successful dispatch: decoding against `payload`
and against `payload ++ R` agree whenever every line read found its
newline inside `payload`. -/
theorem decode_op_append {op : Nat} {payload R : List Nat} {p : Nat}
    {buf : List Nat} {ev : Event} {D1 : List Nat} {p1 : Nat} {b1 : List Nat}
    (hop : opLinesOk op payload = true)
    (h : decode_op op ⟨payload, p⟩ buf = (.ok ev, ⟨D1, p1⟩, b1)) :
    decode_op op ⟨payload ++ R, p⟩ buf = (.ok ev, ⟨D1 ++ R, p1⟩, b1) := by
  unfold decode_op at h ⊢
  split at h
  all_goals
    first
    | exact evSimple_append h
    | exact evFixed_append (fun hx => readScalar_append leNat hx) h
    | exact evFixed_append (fun hx => readScalar_append i32val hx) h
    | exact evFixed_append (fun hx => readScalar_append i64val hx) h
    | exact evFixed_append (fun hx => readScalar_append beNat hx) h
    | exact evLenData_append (fun hx => readScalar_append leNat hx) h
    | exact evLenData_append (fun hx => readScalar_append i32val hx) h
    | exact evLenData_append (fun hx => readScalar_append i64val hx) h
    | exact evLongBin_append (fun hx => readScalar_append leNat hx) h
    | exact evLongBin_append (fun hx => readScalar_append i32val hx) h
    | exact evLine_append (opLinesOk_one (by decide) hop) h
    | exact evIntDec_append (opLinesOk_one (by decide) hop) h
    | exact evLongDec_append (opLinesOk_one (by decide) hop) h
    | exact evFloatDec_append (opLinesOk_one (by decide) hop) h
    | exact evMemoDec_append (opLinesOk_one (by decide) hop) h
    | exact evTwoLines_append (opLinesOk_two (by decide) (by decide) hop) h
    | simp at h

/-- Locality of one successful `read_event` step over a frame's bytes. -/
theorem read_event_append {b : Nat} {payload R : List Nat} {p : Nat}
    {buf : List Nat} {ev : Event} {D1 : List Nat} {p1 : Nat} {b1 : List Nat}
    (hop : opLinesOk (b % 256) payload = true)
    (h : read_event ⟨b :: payload, p⟩ buf = (.ok ev, ⟨D1, p1⟩, b1)) :
    read_event ⟨b :: (payload ++ R), p⟩ buf = (.ok ev, ⟨D1 ++ R, p1⟩, b1) := by
  rw [read_event_cons] at h
  rw [read_event_cons]
  exact decode_op_append hop h

/-! ## Fuel facts for the decode loops -/

theorem frameLen?_eq_some {ev : Event} {len : Nat} (h : frameLen? ev = some len) :
    ev = .Frame len := by
  cases ev <;> simp_all [frameLen?]

theorem frameLen?_ne_stop {ev : Event} {len : Nat} (h : frameLen? ev = some len) :
    ev ≠ .Stop := by
  rw [frameLen?_eq_some h]
  intro hc
  exact Event.noConfusion hc

theorem read_event_empty_stop {r : Reader} {buf : List Nat} {ev : Event}
    {r1 : Reader} {b1 : List Nat}
    (h : read_event r buf = (.ok ev, r1, b1)) (hd : r.data = []) : ev = .Stop := by
  obtain ⟨d, p⟩ := r
  simp only at hd
  subst hd
  rw [read_event_nil] at h
  simp only [Prod.mk.injEq, Except.ok.injEq] at h
  exact h.1.symm

theorem frame_reader_ok {len : Nat} {r : Reader} {fr r2 : Reader}
    (h : frame_reader len r = (.ok fr, r2)) :
    len ≤ r.data.length ∧ fr = ⟨r.data.take len, r.pos⟩ ∧
      r2 = ⟨r.data.drop len, r.pos + len⟩ := by
  unfold frame_reader at h
  rcases hy : fill_buf len r [] with ⟨res, r1, b1⟩
  rw [hy] at h
  cases res with
  | error e => simp at h
  | ok u =>
    obtain ⟨hn, hr1, hb1⟩ := fill_buf_ok hy
    simp only [Prod.mk.injEq, Except.ok.injEq] at h
    refine ⟨hn, ?_, by rw [← h.2, hr1]⟩
    rw [← h.1, hb1, List.nil_append]

theorem worker_loop_mono {f1 : Nat} : ∀ {f2 : Nat} {r : Reader} {buf : List Nat}
    {res : Except Error (List (Nat × Event))}, f1 ≤ f2 →
    worker_loop f1 r buf = some res → worker_loop f2 r buf = some res := by
  induction f1 with
  | zero =>
    intro f2 r buf res hle hw
    simp [worker_loop] at hw
  | succ f ih =>
    intro f2 r buf res hle hw
    obtain ⟨g, rfl⟩ : ∃ g, f2 = g + 1 := ⟨f2 - 1, by omega⟩
    unfold worker_loop at hw ⊢
    rcases hx : read_event r buf with ⟨re, r1, b1⟩
    rw [hx] at hw
    cases re with
    | error e => exact hw
    | ok ev =>
      simp only at hw ⊢
      by_cases hev : ev = .Stop
      · rw [if_pos hev] at hw ⊢
        exact hw
      · rw [if_neg hev] at hw ⊢
        rcases hw2 : worker_loop f r1 [] with _ | w
        · rw [hw2] at hw
          simp at hw
        · rw [hw2] at hw
          rw [ih (by omega) hw2]
          exact hw

theorem worker_loop_isSome {f : Nat} : ∀ {r : Reader} (buf : List Nat),
    r.data.length < f → (worker_loop f r buf).isSome = true := by
  induction f with
  | zero =>
    intro r buf h
    omega
  | succ f ih =>
    intro r buf h
    unfold worker_loop
    rcases hx : read_event r buf with ⟨re, r1, b1⟩
    cases re with
    | error e => simp
    | ok ev =>
      simp only
      by_cases hev : ev = .Stop
      · rw [if_pos hev]
        simp
      · rw [if_neg hev]
        have hlt : r1.data.length < r.data.length :=
          (read_event_ok_shrinks hx).2 fun hnil => hev (read_event_empty_stop hx hnil)
        have hs := ih [] (show r1.data.length < f by omega)
        rcases hsome : worker_loop f r1 [] with _ | w
        · rw [hsome] at hs
          simp at hs
        · cases w <;> simp

theorem worker_loop_run {f : Nat} {r : Reader} (h : r.data.length < f) :
    worker_loop f r [] = some (worker_run r) := by
  have h1 := worker_loop_isSome (r := r) [] (show r.data.length < r.data.length + 1 by omega)
  rcases hx : worker_loop (r.data.length + 1) r [] with _ | w
  · rw [hx] at h1
    simp at h1
  · rw [worker_loop_mono (show r.data.length + 1 ≤ f by omega) hx]
    unfold worker_run
    rw [hx]
    rfl

theorem worker_run_error {r : Reader} {e : Error} {r1 : Reader} {b1 : List Nat}
    (h : read_event r [] = (.error e, r1, b1)) : worker_run r = .error e := by
  unfold worker_run
  simp only [worker_loop]
  rw [h]
  rfl

theorem worker_run_stop {r : Reader} {r1 : Reader} {b1 : List Nat}
    (h : read_event r [] = (.ok .Stop, r1, b1)) : worker_run r = .ok [] := by
  unfold worker_run
  simp only [worker_loop]
  rw [h]
  simp

theorem worker_run_step {r : Reader} {ev : Event} {r1 : Reader} {b1 : List Nat}
    (h : read_event r [] = (.ok ev, r1, b1)) (hev : ev ≠ .Stop) :
    worker_run r = (worker_run r1).map (fun l => (r1.pos, ev) :: l) := by
  have hlt : r1.data.length < r.data.length :=
    (read_event_ok_shrinks h).2 fun hnil => hev (read_event_empty_stop h hnil)
  generalize hgen : worker_run r1 = w
  unfold worker_run
  simp only [worker_loop]
  rw [h]
  simp only
  rw [if_neg hev]
  rw [worker_loop_run (show r1.data.length < r.data.length from hlt)]
  rw [hgen]
  cases w <;> simp [Except.map]

theorem main_loop_mono {f1 : Nat} : ∀ {f2 : Nat} {T : Nat → Bool} {r : Reader}
    {buf : List Nat} {res}, f1 ≤ f2 →
    main_loop f1 T r buf = some res → main_loop f2 T r buf = some res := by
  induction f1 with
  | zero =>
    intro f2 T r buf res hle hw
    simp [main_loop] at hw
  | succ f ih =>
    intro f2 T r buf res hle hw
    obtain ⟨g, rfl⟩ : ∃ g, f2 = g + 1 := ⟨f2 - 1, by omega⟩
    unfold main_loop at hw ⊢
    rcases hx : read_event r buf with ⟨re, r1, b1⟩
    rw [hx] at hw
    cases re with
    | error e => exact hw
    | ok ev =>
      simp only at hw ⊢
      by_cases hev : ev = .Stop
      · rw [if_pos hev] at hw ⊢
        exact hw
      · rw [if_neg hev] at hw ⊢
        rcases hF : frameLen? ev with _ | len
        · try rw [hF] at hw
          try rw [hF]
          simp only at hw ⊢
          rcases hm : main_loop f T r1 [] with _ | w
          · rw [hm] at hw
            simp at hw
          · rw [hm] at hw
            rw [ih (by omega) hm]
            exact hw
        · try rw [hF] at hw
          try rw [hF]
          simp only at hw ⊢
          by_cases hT : T len = true
          · rw [if_pos hT] at hw ⊢
            rcases hfr : frame_reader len r1 with ⟨fres, r2⟩
            try rw [hfr] at hw
            try rw [hfr]
            cases fres with
            | error e => exact hw
            | ok fr =>
              simp only at hw ⊢
              rcases hwk : worker_loop f fr [] with _ | w
              · rw [hwk] at hw
                simp at hw
              · rw [hwk] at hw
                rw [worker_loop_mono (by omega) hwk]
                rcases hm : main_loop f T r2 [] with _ | m
                · rw [hm] at hw
                  simp at hw
                · rw [hm] at hw
                  rw [ih (by omega) hm]
                  exact hw
          · rw [if_neg hT] at hw ⊢
            exact ih (show f ≤ g by omega) hw

theorem main_loop_isSome {f : Nat} : ∀ {T : Nat → Bool} {r : Reader}
    (buf : List Nat),
    r.data.length < f → (main_loop f T r buf).isSome = true := by
  induction f with
  | zero =>
    intro T r buf h
    omega
  | succ f ih =>
    intro T r buf h
    unfold main_loop
    rcases hx : read_event r buf with ⟨re, r1, b1⟩
    cases re with
    | error e => simp
    | ok ev =>
      simp only
      by_cases hev : ev = .Stop
      · rw [if_pos hev]
        simp
      · rw [if_neg hev]
        have hlt1 : r1.data.length < r.data.length :=
          (read_event_ok_shrinks hx).2 fun hnil => hev (read_event_empty_stop hx hnil)
        rcases hF : frameLen? ev with _ | len
        · simp only
          have hs := @ih T r1 [] (show r1.data.length < f by omega)
          rcases hm : main_loop f T r1 [] with _ | w
          · rw [hm] at hs
            simp at hs
          · cases w <;> simp
        · simp only
          by_cases hT : T len = true
          · rw [if_pos hT]
            rcases hfr : frame_reader len r1 with ⟨fres, r2⟩
            cases fres with
            | error e => simp
            | ok fr =>
              obtain ⟨hlen, hfrv, hr2⟩ := frame_reader_ok hfr
              have hfrlen : fr.data.length = len := by
                rw [hfrv]
                simp only [List.length_take]
                omega
              have hwk := worker_loop_isSome (r := fr) []
                (show fr.data.length < f by omega)
              rcases hwks : worker_loop f fr [] with _ | w
              · rw [hwks] at hwk
                simp at hwk
              · simp only
                have hr2len : r2.data.length < f := by
                  rw [hr2]
                  simp only [List.length_drop]
                  omega
                have hs := @ih T r2 [] (show r2.data.length < f from hr2len)
                rcases hm : main_loop f T r2 [] with _ | m
                · rw [hm] at hs
                  simp at hs
                · rw [hwks]
                  cases m <;> simp
          · rw [if_neg hT]
            exact @ih T r1 [] (show r1.data.length < f by omega)

theorem main_loop_run {f : Nat} {T : Nat → Bool} {r : Reader}
    (h : r.data.length < f) :
    main_loop f T r [] = some (main_run T r) := by
  have h1 := @main_loop_isSome (r.data.length + 1) T r []
    (show r.data.length < r.data.length + 1 by omega)
  rcases hx : main_loop (r.data.length + 1) T r [] with _ | w
  · rw [hx] at h1
    simp at h1
  · rw [main_loop_mono (show r.data.length + 1 ≤ f by omega) hx]
    unfold main_run
    rw [hx]
    rfl

theorem main_run_error {T : Nat → Bool} {r : Reader} {e : Error} {r1 : Reader}
    {b1 : List Nat} (h : read_event r [] = (.error e, r1, b1)) :
    main_run T r = .error e := by
  unfold main_run
  simp only [main_loop]
  rw [h]
  rfl

theorem main_run_stop {T : Nat → Bool} {r : Reader} {r1 : Reader} {b1 : List Nat}
    (h : read_event r [] = (.ok .Stop, r1, b1)) : main_run T r = .ok ([], []) := by
  unfold main_run
  simp only [main_loop]
  rw [h]
  simp

theorem main_run_push {T : Nat → Bool} {r : Reader} {ev : Event} {r1 : Reader}
    {b1 : List Nat} (h : read_event r [] = (.ok ev, r1, b1))
    (hev : ev ≠ .Stop) (hF : frameLen? ev = none) :
    main_run T r = (main_run T r1).map (fun x => ((r1.pos, ev) :: x.1, x.2)) := by
  have hlt : r1.data.length < r.data.length :=
    (read_event_ok_shrinks h).2 fun hnil => hev (read_event_empty_stop h hnil)
  generalize hgen : main_run T r1 = w
  unfold main_run
  simp only [main_loop]
  rw [h]
  simp only
  rw [if_neg hev, hF]
  simp only
  rw [main_loop_run (show r1.data.length < r.data.length from hlt)]
  rw [hgen]
  cases w <;> simp [Except.map]

theorem main_run_small {T : Nat → Bool} {r : Reader} {len : Nat} {ev : Event}
    {r1 : Reader} {b1 : List Nat} (h : read_event r [] = (.ok ev, r1, b1))
    (hF : frameLen? ev = some len) (hT : ¬T len = true) :
    main_run T r = main_run T r1 := by
  have hev : ev ≠ .Stop := frameLen?_ne_stop hF
  have hlt : r1.data.length < r.data.length :=
    (read_event_ok_shrinks h).2 fun hnil => hev (read_event_empty_stop h hnil)
  generalize hgen : main_run T r1 = w
  unfold main_run
  simp only [main_loop]
  rw [h]
  simp only
  rw [if_neg hev, hF]
  simp only
  rw [if_neg hT]
  rw [main_loop_run (show r1.data.length < r.data.length from hlt)]
  rw [hgen]
  rfl

theorem main_run_frame_err {T : Nat → Bool} {r : Reader} {len : Nat} {ev : Event}
    {r1 : Reader} {b1 : List Nat} {e : Error} {r2 : Reader}
    (h : read_event r [] = (.ok ev, r1, b1))
    (hF : frameLen? ev = some len) (hT : T len = true)
    (hfr : frame_reader len r1 = (.error e, r2)) :
    main_run T r = .error e := by
  have hev : ev ≠ .Stop := frameLen?_ne_stop hF
  unfold main_run
  simp only [main_loop]
  rw [h]
  simp only
  rw [if_neg hev, hF]
  simp only
  rw [if_pos hT, hfr]
  rfl

theorem main_run_spawn {T : Nat → Bool} {r : Reader} {len : Nat} {ev : Event}
    {r1 : Reader} {b1 : List Nat} {fr r2 : Reader}
    (h : read_event r [] = (.ok ev, r1, b1))
    (hF : frameLen? ev = some len) (hT : T len = true)
    (hfr : frame_reader len r1 = (.ok fr, r2)) :
    main_run T r =
      (main_run T r2).map (fun x => (x.1, worker_run fr :: x.2)) := by
  have hev : ev ≠ .Stop := frameLen?_ne_stop hF
  have hlt : r1.data.length < r.data.length :=
    (read_event_ok_shrinks h).2 fun hnil => hev (read_event_empty_stop h hnil)
  obtain ⟨hlen, hfrv, hr2⟩ := frame_reader_ok hfr
  have hfrlen : fr.data.length < r.data.length := by
    rw [hfrv]
    simp only [List.length_take]
    omega
  have hr2len : r2.data.length < r.data.length := by
    rw [hr2]
    simp only [List.length_drop]
    omega
  generalize hgen : main_run T r2 = w
  unfold main_run
  simp only [main_loop]
  rw [h]
  simp only
  rw [if_neg hev, hF]
  simp only
  rw [if_pos hT, hfr]
  simp only
  rw [worker_loop_run (show fr.data.length < r.data.length from hfrlen)]
  simp only
  rw [main_loop_run (show r2.data.length < r.data.length from hr2len)]
  rw [hgen]
  cases w <;> simp [Except.map]

/-! ## Worker runs: event positions and alignment with the inline decode -/

/-- The sort-key strict order; sorting with respect to `posLe` of a
list that is strictly increasing in position is the identity. -/
def posLt (a b : Nat × Event) : Prop := a.1 < b.1

/-- A successful worker run produces strictly position-ordered events,
all lying inside the frame's byte range. -/
theorem worker_run_facts_aux (n : Nat) : ∀ {D : List Nat} {p : Nat}
    {W : List (Nat × Event)}, D.length ≤ n → worker_run ⟨D, p⟩ = .ok W →
    W.Sorted posLt ∧ ∀ x ∈ W, p < x.1 ∧ x.1 ≤ p + D.length := by
  induction n with
  | zero =>
    intro D p W hle hw
    have hD : D = [] := List.length_eq_zero.mp (by omega)
    subst hD
    rw [worker_run_stop (read_event_nil p [])] at hw
    simp only [Except.ok.injEq] at hw
    subst hw
    exact ⟨List.sorted_nil, by simp⟩
  | succ n ih =>
    intro D p W hle hw
    rcases hx : read_event ⟨D, p⟩ [] with ⟨re, r1, b1⟩
    cases re with
    | error e =>
      rw [worker_run_error hx] at hw
      simp at hw
    | ok ev =>
      by_cases hev : ev = .Stop
      · subst hev
        rw [worker_run_stop hx] at hw
        simp only [Except.ok.injEq] at hw
        subst hw
        exact ⟨List.sorted_nil, by simp⟩
      · have hDne : D ≠ [] := fun hnil => hev (read_event_empty_stop hx hnil)
        have hshr := read_event_ok_shrinks hx
        have hlt : r1.data.length < D.length := hshr.2 hDne
        have hcons : r1.pos + r1.data.length = p + D.length := hshr.1.2
        rw [worker_run_step hx hev] at hw
        rcases hw1 : worker_run r1 with e | W1
        · rw [hw1] at hw
          simp [Except.map] at hw
        · rw [hw1] at hw
          simp only [Except.map, Except.ok.injEq] at hw
          subst hw
          obtain ⟨d1, q1⟩ := r1
          simp only at hlt hcons
          obtain ⟨hsort1, hbound1⟩ := ih (show d1.length ≤ n by omega) hw1
          constructor
          · rw [List.sorted_cons]
            exact ⟨fun x hx2 => (hbound1 x hx2).1, hsort1⟩
          · intro x hx2
            rcases List.mem_cons.mp hx2 with h1 | h1
            · subst h1
              simp only
              omega
            · have := hbound1 x h1
              simp only at this
              omega

theorem worker_run_facts {D : List Nat} {p : Nat} {W : List (Nat × Event)}
    (hw : worker_run ⟨D, p⟩ = .ok W) :
    W.Sorted posLt ∧ ∀ x ∈ W, p < x.1 ∧ x.1 ≤ p + D.length :=
  worker_run_facts_aux D.length (Nat.le_refl _) hw

/-- Alignment, synthesized-Stop form: a frame interior that passes
`wf_worker` with a synthesized Stop decodes inline — against the same
bytes followed by anything — to exactly the worker's events, after
which the inline decode continues where the frame ended. -/
theorem worker_align_fake_aux (n : Nat) : ∀ {D : List Nat} {f p : Nat},
    D.length ≤ n → wf_worker f ⟨D, p⟩ = some false →
    ∃ W, worker_run ⟨D, p⟩ = .ok W ∧
      ∀ (R : List Nat) (T : Nat → Bool), main_run T ⟨D ++ R, p⟩ =
        (main_run T ⟨R, p + D.length⟩).map (fun x => (W ++ x.1, x.2)) := by
  induction n with
  | zero =>
    intro D f p hle hwf
    have hD : D = [] := List.length_eq_zero.mp (by omega)
    subst hD
    refine ⟨[], worker_run_stop (read_event_nil p []), ?_⟩
    intro R T
    rcases hm : main_run T ⟨R, p⟩ with e | x <;>
      rw [show main_run T ⟨([] : List Nat) ++ R, p⟩ = main_run T ⟨R, p⟩ from rfl,
        show main_run T ⟨R, p + ([] : List Nat).length⟩ = main_run T ⟨R, p⟩ from rfl,
        hm] <;> try rfl
  | succ n ih =>
    intro D f p hle hwf
    obtain ⟨g, rfl⟩ : ∃ g, f = g + 1 := by
      cases f with
      | zero => simp [wf_worker] at hwf
      | succ g => exact ⟨g, rfl⟩
    rw [show wf_worker (g + 1) ⟨D, p⟩ =
      (match read_event ⟨D, p⟩ [] with
       | (.error _, _, _) => none
       | (.ok ev, r1, _) =>
         if ev = .Stop then
           match (⟨D, p⟩ : Reader).data with
           | [] => some false
           | op :: payload => if opLinesOk (op % 256) payload then some true else none
         else if (frameLen? ev).isSome then none
         else
           match (⟨D, p⟩ : Reader).data with
           | [] => none
           | op :: payload =>
             if opLinesOk (op % 256) payload then wf_worker g r1 else none) from rfl]
      at hwf
    rcases hx : read_event ⟨D, p⟩ [] with ⟨re, r1, b1⟩
    rw [hx] at hwf
    cases re with
    | error e => simp at hwf
    | ok ev =>
      simp only at hwf
      by_cases hev : ev = .Stop
      · rw [if_pos hev] at hwf
        cases D with
        | nil =>
          subst hev
          refine ⟨[], worker_run_stop hx, ?_⟩
          intro R T
          rcases hm : main_run T ⟨R, p⟩ with e | x <;>
            rw [show main_run T ⟨([] : List Nat) ++ R, p⟩ = main_run T ⟨R, p⟩ from rfl,
              show main_run T ⟨R, p + ([] : List Nat).length⟩ = main_run T ⟨R, p⟩ from rfl,
              hm] <;> try rfl
        | cons op payload =>
          simp only at hwf
          split at hwf <;> simp at hwf
      · rw [if_neg hev] at hwf
        have hDne : D ≠ [] := fun hnil => hev (read_event_empty_stop hx hnil)
        rcases hFs : frameLen? ev with _ | len
        · rw [hFs] at hwf
          simp only [Option.isSome_none, Bool.false_eq_true, if_false] at hwf
          cases D with
          | nil => exact absurd rfl hDne
          | cons op payload =>
            simp only at hwf
            split at hwf
            · next hLines =>
              have hshr := read_event_ok_shrinks hx
              have hlt : r1.data.length < payload.length + 1 := by
                have := hshr.2 hDne
                simpa using this
              have hcons : r1.pos + r1.data.length = p + (payload.length + 1) := by
                have := hshr.1.2
                simpa using this
              obtain ⟨d1, q1⟩ := r1
              simp only at hlt hcons
              have hle2 : payload.length + 1 ≤ n + 1 := by simpa using hle
              obtain ⟨W1, hW1, halign⟩ := ih (show d1.length ≤ n by omega) hwf
              refine ⟨(q1, ev) :: W1, ?_, ?_⟩
              · rw [worker_run_step hx hev, hW1]
                rfl
              · intro R T
                have hxa := read_event_append (R := R) hLines hx
                rw [show (op :: payload) ++ R = op :: (payload ++ R) from rfl]
                rw [main_run_push hxa hev hFs]
                rw [halign R T]
                have hq : q1 + d1.length = p + (op :: payload).length := by
                  simp only [List.length_cons]
                  omega
                rw [hq]
                cases main_run T ⟨R, p + (op :: payload).length⟩ <;>
                  simp [Except.map]
            · simp at hwf
        · rw [hFs] at hwf
          simp at hwf

/-- Alignment, explicit-Stop form: a frame interior that passes
`wf_worker` ending at an explicit Stop decodes inline to exactly the
worker's events and then terminates the whole inline loop. -/
theorem worker_align_real_aux (n : Nat) : ∀ {D : List Nat} {f p : Nat},
    D.length ≤ n → wf_worker f ⟨D, p⟩ = some true →
    ∃ W, worker_run ⟨D, p⟩ = .ok W ∧
      ∀ (R : List Nat) (T : Nat → Bool),
        main_run T ⟨D ++ R, p⟩ = .ok (W, []) := by
  induction n with
  | zero =>
    intro D f p hle hwf
    have hD : D = [] := List.length_eq_zero.mp (by omega)
    subst hD
    obtain ⟨g, rfl⟩ : ∃ g, f = g + 1 := by
      cases f with
      | zero => simp [wf_worker] at hwf
      | succ g => exact ⟨g, rfl⟩
    simp [wf_worker, read_event_nil] at hwf
  | succ n ih =>
    intro D f p hle hwf
    obtain ⟨g, rfl⟩ : ∃ g, f = g + 1 := by
      cases f with
      | zero => simp [wf_worker] at hwf
      | succ g => exact ⟨g, rfl⟩
    rw [show wf_worker (g + 1) ⟨D, p⟩ =
      (match read_event ⟨D, p⟩ [] with
       | (.error _, _, _) => none
       | (.ok ev, r1, _) =>
         if ev = .Stop then
           match (⟨D, p⟩ : Reader).data with
           | [] => some false
           | op :: payload => if opLinesOk (op % 256) payload then some true else none
         else if (frameLen? ev).isSome then none
         else
           match (⟨D, p⟩ : Reader).data with
           | [] => none
           | op :: payload =>
             if opLinesOk (op % 256) payload then wf_worker g r1 else none) from rfl]
      at hwf
    rcases hx : read_event ⟨D, p⟩ [] with ⟨re, r1, b1⟩
    rw [hx] at hwf
    cases re with
    | error e => simp at hwf
    | ok ev =>
      simp only at hwf
      by_cases hev : ev = .Stop
      · rw [if_pos hev] at hwf
        cases D with
        | nil => simp at hwf
        | cons op payload =>
          simp only at hwf
          split at hwf
          · next hLines =>
            subst hev
            obtain ⟨d1, q1⟩ := r1
            refine ⟨[], worker_run_stop hx, ?_⟩
            intro R T
            have hxa := read_event_append (R := R) hLines hx
            rw [show (op :: payload) ++ R = op :: (payload ++ R) from rfl]
            exact main_run_stop hxa
          · simp at hwf
      · rw [if_neg hev] at hwf
        have hDne : D ≠ [] := fun hnil => hev (read_event_empty_stop hx hnil)
        rcases hFs : frameLen? ev with _ | len
        · rw [hFs] at hwf
          simp only [Option.isSome_none, Bool.false_eq_true, if_false] at hwf
          cases D with
          | nil => exact absurd rfl hDne
          | cons op payload =>
            simp only at hwf
            split at hwf
            · next hLines =>
              have hshr := read_event_ok_shrinks hx
              have hlt : r1.data.length < payload.length + 1 := by
                have := hshr.2 hDne
                simpa using this
              obtain ⟨d1, q1⟩ := r1
              simp only at hlt
              have hle2 : payload.length + 1 ≤ n + 1 := by simpa using hle
              obtain ⟨W1, hW1, halign⟩ := ih (show d1.length ≤ n by omega) hwf
              refine ⟨(q1, ev) :: W1, ?_, ?_⟩
              · rw [worker_run_step hx hev, hW1]
                rfl
              · intro R T
                have hxa := read_event_append (R := R) hLines hx
                rw [show (op :: payload) ++ R = op :: (payload ++ R) from rfl]
                rw [main_run_push hxa hev hFs]
                rw [halign R T]
                rfl
            · simp at hwf
        · rw [hFs] at hwf
          simp at hwf

theorem worker_align_fake {D : List Nat} {f p : Nat}
    (h : wf_worker f ⟨D, p⟩ = some false) :
    ∃ W, worker_run ⟨D, p⟩ = .ok W ∧
      ∀ (R : List Nat) (T : Nat → Bool), main_run T ⟨D ++ R, p⟩ =
        (main_run T ⟨R, p + D.length⟩).map (fun x => (W ++ x.1, x.2)) :=
  worker_align_fake_aux D.length (Nat.le_refl _) h

theorem worker_align_real {D : List Nat} {f p : Nat}
    (h : wf_worker f ⟨D, p⟩ = some true) :
    ∃ W, worker_run ⟨D, p⟩ = .ok W ∧
      ∀ (R : List Nat) (T : Nat → Bool), main_run T ⟨D ++ R, p⟩ = .ok (W, []) :=
  worker_align_real_aux D.length (Nat.le_refl _) h

/-- The one-step-ahead form of `frame_reader` on a sufficient source. -/
theorem frame_reader_eq_ok {len : Nat} {r : Reader} (h : len ≤ r.data.length) :
    frame_reader len r =
      (.ok ⟨r.data.take len, r.pos⟩, ⟨r.data.drop len, r.pos + len⟩) := by
  unfold frame_reader
  rw [fill_buf_eq_ok h]
  rw [List.nil_append]

/-- The equivalence invariant between the spawning decode (`T`) and the
fully inline decode (constant-false spawn): on a well-formed stream the
two runs fail identically, or the inline run's event list is a strictly
position-sorted permutation of the spawning run's main-thread events
plus all its (successful) worker events. -/
theorem main_equiv_aux (n : Nat) : ∀ {r : Reader} {f : Nat} {T : Nat → Bool},
    r.data.length ≤ n → wf_main f T r = true →
    (∃ e, main_run T r = .error e ∧ main_run (fun _ => false) r = .error e) ∨
    (∃ (M : List (Nat × Event)) (Ws : List (List (Nat × Event)))
      (S2 : List (Nat × Event)), main_run T r = .ok (M, Ws.map Except.ok) ∧
      main_run (fun _ => false) r = .ok (S2, []) ∧
      List.Perm (M ++ Ws.flatten) S2 ∧
      S2.Sorted posLt ∧ M.Sorted posLt ∧
      (∀ x ∈ S2, r.pos < x.1) ∧ (∀ x ∈ M, r.pos < x.1)) := by
  induction n with
  | zero =>
    intro r f T hle hwf
    obtain ⟨d, q⟩ := r
    have hd : d = [] := List.length_eq_zero.mp (by simpa using hle)
    subst hd
    right
    refine ⟨[], [], [], main_run_stop (read_event_nil q []),
      main_run_stop (read_event_nil q []), ?_, List.sorted_nil,
      List.sorted_nil, by simp, by simp⟩
    simp
  | succ n ih =>
    intro r f T hle hwf
    obtain ⟨g, rfl⟩ : ∃ g, f = g + 1 := by
      cases f with
      | zero => simp [wf_main] at hwf
      | succ g => exact ⟨g, rfl⟩
    simp only [wf_main] at hwf
    rcases hx : read_event r [] with ⟨re, r1, b1⟩
    rw [hx] at hwf
    cases re with
    | error e =>
      exact Or.inl ⟨e, main_run_error hx, main_run_error hx⟩
    | ok ev =>
      simp only at hwf
      by_cases hev : ev = .Stop
      · subst hev
        right
        refine ⟨[], [], [], main_run_stop hx, main_run_stop hx, by simp,
          List.sorted_nil, List.sorted_nil, by simp, by simp⟩
      · rw [if_neg hev] at hwf
        have hDne : r.data ≠ [] := fun hnil => hev (read_event_empty_stop hx hnil)
        have hshr := read_event_ok_shrinks hx
        have hlt : r1.data.length < r.data.length := hshr.2 hDne
        have hcons : r1.pos + r1.data.length = r.pos + r.data.length := hshr.1.2
        have hppos : r.pos < r1.pos := by omega
        rcases hFs : frameLen? ev with _ | len
        · -- an ordinary event: both runs record it and continue
          try rw [hFs] at hwf
          simp only at hwf
          rcases ih (show r1.data.length ≤ n by omega) hwf with
            ⟨e, hpe, hse⟩ | ⟨M1, Ws1, S21, hpo, hso, hperm, hs2sort, hmsort, hs2b, hmb⟩
          · left
            refine ⟨e, ?_, ?_⟩
            · rw [main_run_push hx hev hFs, hpe]
              rfl
            · rw [main_run_push hx hev hFs, hse]
              rfl
          · right
            refine ⟨(r1.pos, ev) :: M1, Ws1, (r1.pos, ev) :: S21, ?_, ?_, ?_, ?_, ?_, ?_, ?_⟩
            · rw [main_run_push hx hev hFs, hpo]
              rfl
            · rw [main_run_push hx hev hFs, hso]
              rfl
            · rw [List.cons_append]
              exact List.Perm.cons _ hperm
            · rw [List.sorted_cons]
              exact ⟨fun x hx2 => hs2b x hx2, hs2sort⟩
            · rw [List.sorted_cons]
              exact ⟨fun x hx2 => hmb x hx2, hmsort⟩
            · intro x hx2
              rcases List.mem_cons.mp hx2 with h1 | h1
              · subst h1
                exact hppos
              · exact Nat.lt_trans hppos (hs2b x h1)
            · intro x hx2
              rcases List.mem_cons.mp hx2 with h1 | h1
              · subst h1
                exact hppos
              · exact Nat.lt_trans hppos (hmb x h1)
        · -- a Frame event
          try rw [hFs] at hwf
          simp only at hwf
          by_cases hT : T len = true
          · rw [if_pos hT] at hwf
            split at hwf
            · next hlen =>
              obtain ⟨d1, q1⟩ := r1
              simp only at hlen hcons hppos hlt
              have hfr : frame_reader len ⟨d1, q1⟩ =
                  (.ok ⟨d1.take len, q1⟩, ⟨d1.drop len, q1 + len⟩) :=
                frame_reader_eq_ok hlen
              have htklen : (d1.take len).length = len := by
                simp only [List.length_take]
                omega
              rcases hWk : wf_worker (len + 1) ⟨d1.take len, q1⟩ with _ | flag
              · rw [hWk] at hwf
                simp at hwf
              · rw [hWk] at hwf
                cases flag with
                | false =>
                  simp only at hwf
                  obtain ⟨W, hW, halign⟩ := worker_align_fake hWk
                  obtain ⟨hWsort, hWb⟩ := worker_run_facts hW
                  rw [htklen] at hWb
                  have hseq1 : main_run (fun _ => false) r =
                      main_run (fun _ => false) ⟨d1, q1⟩ :=
                    main_run_small hx hFs (by simp)
                  have hsplit : d1 = d1.take len ++ d1.drop len :=
                    (List.take_append_drop len d1).symm
                  have hseq2 : main_run (fun _ => false) ⟨d1, q1⟩ =
                      (main_run (fun _ => false) ⟨d1.drop len, q1 + len⟩).map
                        (fun x => (W ++ x.1, x.2)) := by
                    conv_lhs => rw [show (⟨d1, q1⟩ : Reader) =
                      ⟨d1.take len ++ d1.drop len, q1⟩ by rw [← hsplit]]
                    rw [halign (d1.drop len) (fun _ => false), htklen]
                  have hr2len : (d1.drop len).length ≤ n := by
                    simp only [List.length_drop]
                    omega
                  rcases ih hr2len hwf with
                    ⟨e, hpe, hse⟩ | ⟨M2, Ws2, S22, hpo, hso, hperm, hs2sort, hmsort, hs2b, hmb⟩
                  · left
                    refine ⟨e, ?_, ?_⟩
                    · rw [main_run_spawn hx hFs hT hfr, hpe]
                      rfl
                    · rw [hseq1, hseq2, hse]
                      rfl
                  · right
                    refine ⟨M2, W :: Ws2, W ++ S22, ?_, ?_, ?_, ?_, ?_, ?_, ?_⟩
                    · rw [main_run_spawn hx hFs hT hfr, hpo, hW]
                      rfl
                    · rw [hseq1, hseq2, hso]
                      rfl
                    · -- M2 ++ (W ++ F2) ~ W ++ S22
                      have h1 : List.Perm (M2 ++ (W :: Ws2).flatten)
                          ((M2 ++ W) ++ Ws2.flatten) := by
                        rw [List.flatten_cons, ← List.append_assoc]
                      have h2 : List.Perm ((M2 ++ W) ++ Ws2.flatten)
                          ((W ++ M2) ++ Ws2.flatten) :=
                        List.Perm.append_right _ List.perm_append_comm
                      have h3 : List.Perm ((W ++ M2) ++ Ws2.flatten)
                          (W ++ (M2 ++ Ws2.flatten)) := by
                        rw [List.append_assoc]
                      exact (h1.trans h2).trans (h3.trans (hperm.append_left W))
                    · -- sortedness of W ++ S22
                      rw [List.Sorted, List.pairwise_append]
                      refine ⟨hWsort, hs2sort, fun x hxW y hyS => ?_⟩
                      have h1 := (hWb x hxW).2
                      have h2 := hs2b y hyS
                      simp only at h2
                      exact Nat.lt_of_le_of_lt h1 h2
                    · exact hmsort
                    · intro x hx2
                      rcases List.mem_append.mp hx2 with h1 | h1
                      · exact Nat.lt_trans hppos (hWb x h1).1
                      · have := hs2b x h1
                        simp only at this
                        omega
                    · intro x hx2
                      have := hmb x hx2
                      simp only at this
                      omega
                | true =>
                  simp only at hwf
                  obtain ⟨W, hW, halign⟩ := worker_align_real hWk
                  obtain ⟨hWsort, hWb⟩ := worker_run_facts hW
                  rw [htklen] at hWb
                  rcases hx2 : read_event ⟨d1.drop len, q1 + len⟩ [] with ⟨re2, r2x, b2x⟩
                  rw [hx2] at hwf
                  cases re2 with
                  | error e => simp at hwf
                  | ok ev2 =>
                    simp only [decide_eq_true_eq] at hwf
                    subst hwf
                    have hpar2 : main_run T ⟨d1.drop len, q1 + len⟩ = .ok ([], []) :=
                      main_run_stop hx2
                    have hseq1 : main_run (fun _ => false) r =
                        main_run (fun _ => false) ⟨d1, q1⟩ :=
                      main_run_small hx hFs (by simp)
                    have hsplit : d1 = d1.take len ++ d1.drop len :=
                      (List.take_append_drop len d1).symm
                    have hseq2 : main_run (fun _ => false) ⟨d1, q1⟩ = .ok (W, []) := by
                      conv_lhs => rw [show (⟨d1, q1⟩ : Reader) =
                        ⟨d1.take len ++ d1.drop len, q1⟩ by rw [← hsplit]]
                      rw [halign (d1.drop len) (fun _ => false)]
                    right
                    refine ⟨[], [W], W, ?_, ?_, by simp, hWsort, List.sorted_nil,
                      ?_, by simp⟩
                    · rw [main_run_spawn hx hFs hT hfr, hpar2, hW]
                      rfl
                    · rw [hseq1, hseq2]
                    · intro x hx3
                      exact Nat.lt_trans hppos (hWb x hx3).1
            · simp at hwf
          · rw [if_neg hT] at hwf
            have hpar : main_run T r = main_run T r1 := main_run_small hx hFs hT
            have hseq : main_run (fun _ => false) r =
                main_run (fun _ => false) r1 :=
              main_run_small hx hFs (by simp)
            rcases ih (show r1.data.length ≤ n by omega) hwf with
              ⟨e, hpe, hse⟩ | ⟨M1, Ws1, S21, hpo, hso, hperm, hs2sort, hmsort, hs2b, hmb⟩
            · exact Or.inl ⟨e, hpar.trans hpe, hseq.trans hse⟩
            · right
              refine ⟨M1, Ws1, S21, hpar.trans hpo, hseq.trans hso, hperm,
                hs2sort, hmsort, ?_, ?_⟩
              · intro x hx2
                exact Nat.lt_trans hppos (hs2b x hx2)
              · intro x hx2
                exact Nat.lt_trans hppos (hmb x hx2)

theorem first_worker_error_map_ok (l : List (List (Nat × Event))) :
    first_worker_error (l.map Except.ok) = none := by
  induction l with
  | nil => rfl
  | cons a t ih => simpa [first_worker_error] using ih

theorem worker_events_map_ok (l : List (List (Nat × Event))) :
    worker_events (l.map Except.ok) = l.flatten := by
  induction l with
  | nil => rfl
  | cons a t ih => simp [worker_events, ih]

instance : IsAntisymm (Nat × Event) posLt :=
  ⟨fun _ _ h1 h2 => absurd h2 (Nat.lt_asymm h1)⟩

/-- A stable sort of any permutation of a strictly position-sorted list
recovers that list: positions are pairwise distinct, so the `≤`-sorted
arrangement is unique. -/
theorem sort_by_pos_eq {l S : List (Nat × Event)} (hperm : List.Perm l S)
    (hS : S.Sorted posLt) : sort_by_pos l = S := by
  have hp : List.Perm (sort_by_pos l) S :=
    (List.perm_insertionSort posLe l).trans hperm
  have hle : (sort_by_pos l).Sorted posLe := List.sorted_insertionSort posLe l
  have hSne : S.Pairwise (fun a b : Nat × Event => a.1 ≠ b.1) :=
    List.Pairwise.imp (fun h => Nat.ne_of_lt h) hS
  have hlne : (sort_by_pos l).Pairwise (fun a b : Nat × Event => a.1 ≠ b.1) :=
    (List.Perm.pairwise_iff (fun h => Ne.symm h) hp).mpr hSne
  have hlt : (sort_by_pos l).Sorted posLt :=
    List.Pairwise.imp (fun h => Nat.lt_of_le_of_ne h.1 h.2)
      (List.Pairwise.and hle hlne)
  exact List.eq_of_perm_of_sorted hp hlt hS

/-- On a well-formed stream, the spawning whole-stream decode and the
never-spawning (inline) decode return the same result. -/
theorem par_seq_equiv {T : Nat} {s : List Nat} (hwf : wf_stream T s = true) :
    par_collect_gen T s = seq_collect_events s := by
  rcases main_equiv_aux s.length (r := ⟨s, 0⟩) (T := spawns T)
      (Nat.le_refl _) hwf with
    ⟨e, hpe, hse⟩ | ⟨M, Ws, S2, hpo, hso, hperm, hs2sort, hmsort, _, _⟩
  · unfold par_collect_gen seq_collect_events
    rw [hpe, hse]
  · unfold par_collect_gen seq_collect_events
    rw [hpo, hso]
    have hseq : par_collect_post (.ok (S2, [])) = .ok (S2.map Prod.snd) := rfl
    rw [hseq]
    cases Ws with
    | nil =>
      have hM : M = S2 :=
        List.eq_of_perm_of_sorted (by simpa using hperm) hmsort hs2sort
      rw [hM]
      rfl
    | cons W Wt =>
      have hne : (((W :: Wt).map Except.ok :
          List (Except Error (List (Nat × Event))))).isEmpty = false := rfl
      simp only [par_collect_post]
      rw [hne]
      simp only [Bool.false_eq_true, if_false]
      rw [first_worker_error_map_ok, worker_events_map_ok,
        sort_by_pos_eq hperm hs2sort]

/-! ## Helper lemmas for truncated payloads -/

/-- A fixed-width scalar payload truncated by end of input is a hard
I/O error. -/
theorem evFixed_trunc {α : Type} (n : Nat) (f : List Nat → α) (mk : α → Event)
    {d : List Nat} (p : Nat) (buf : List Nat) (h : d.length < n) :
    (evFixed (readScalar n f) mk ⟨d, p⟩ buf).1 = .error .ioEof := by
  unfold evFixed
  rw [readScalar_eq_err (r := ⟨d, p⟩) f h]

/-- A length prefix truncated by end of input is a hard I/O error
(string/bytes family). -/
theorem evLenData_head_trunc {α : Type} (n : Nat) (f : List Nat → α)
    (tc : α → Nat) (mk : α → Event) {d : List Nat} (p : Nat) (buf : List Nat)
    (h : d.length < n) :
    (evLenData (readScalar n f) tc mk ⟨d, p⟩ buf).1 = .error .ioEof := by
  unfold evLenData
  rw [readScalar_eq_err (r := ⟨d, p⟩) f h]

/-- A length prefix truncated by end of input is a hard I/O error
(binary long family). -/
theorem evLongBin_head_trunc {α : Type} (code : Nat) (n : Nat)
    (f : List Nat → α) (tc : α → Nat) {d : List Nat} (p : Nat) (buf : List Nat)
    (h : d.length < n) :
    (evLongBin code (readScalar n f) tc ⟨d, p⟩ buf).1 = .error .ioEof := by
  unfold evLongBin
  rw [readScalar_eq_err (r := ⟨d, p⟩) f h]

/-- Declared payload data truncated by end of input is a hard I/O error
(string/bytes family). -/
theorem evLenData_data_trunc {α : Type} (n : Nat) (f : List Nat → α)
    (tc : α → Nat) (mk : α → Event) {pre rest : List Nat} (p : Nat)
    (buf : List Nat) (hpre : pre.length = n) (hlen : rest.length < tc (f pre)) :
    (evLenData (readScalar n f) tc mk ⟨pre ++ rest, p⟩ buf).1 = .error .ioEof := by
  unfold evLenData
  rw [readScalar_eq_ok (r := ⟨pre ++ rest, p⟩) f
    (by simp only [List.length_append]; omega)]
  simp only [List.take_left' hpre, List.drop_left' hpre]
  rw [fill_buf_eq_err (r := ⟨rest, p + n⟩) hlen]

/-- Declared payload data truncated by end of input is a hard I/O error
(binary long family). -/
theorem evLongBin_data_trunc {α : Type} (code : Nat) (n : Nat)
    (f : List Nat → α) (tc : α → Nat) {pre rest : List Nat} (p : Nat)
    (buf : List Nat) (hpre : pre.length = n) (hlen : rest.length < tc (f pre)) :
    (evLongBin code (readScalar n f) tc ⟨pre ++ rest, p⟩ buf).1 = .error .ioEof := by
  unfold evLongBin
  rw [readScalar_eq_ok (r := ⟨pre ++ rest, p⟩) f
    (by simp only [List.length_append]; omega)]
  simp only [List.take_left' hpre, List.drop_left' hpre]
  rw [fill_buf_eq_err (r := ⟨rest, p + n⟩) hlen]

/-- The opcodes whose whole payload is read eagerly right after the
opcode byte, with the byte count of the fixed leading read: the
fixed-width scalar opcodes and the length prefixes of the
length-prefixed opcodes (src/reader.rs lines 207-429). -/
def eagerOps : List (Nat × Nat) :=
  [(0x80, 1), (0x4a, 4), (0x4b, 1), (0x4d, 2), (0x47, 8), (0x68, 1), (0x6a, 4),
   (0x71, 1), (0x72, 4), (0x82, 1), (0x83, 2), (0x84, 4), (0x95, 8),
   (0x8a, 1), (0x8b, 4), (0x54, 4), (0x55, 1), (0x58, 4), (0x8c, 1),
   (0x8d, 8), (0x42, 4), (0x43, 1), (0x8e, 8), (0x96, 8)]

/-- The length-prefixed opcodes: prefix width in bytes and the declared
data byte count as the code computes it from the prefix bytes
(`as usize` casts included; src/reader.rs lines 250-343). -/
def lenPrefixOps : List (Nat × Nat × (List Nat → Nat)) :=
  [(0x8a, 1, leNat), (0x8b, 4, fun pre => castUsize (i32val pre)),
   (0x54, 4, fun pre => castUsize (i32val pre)), (0x55, 1, leNat),
   (0x58, 4, fun pre => castUsize (i32val pre)), (0x8c, 1, leNat),
   (0x8d, 8, fun pre => castUsize (i64val pre)),
   (0x42, 4, fun pre => castUsize (i32val pre)), (0x43, 1, leNat),
   (0x8e, 8, leNat), (0x96, 8, leNat)]

/-- SHORT_BINSTRING (0x55) with its declared payload present: one event
carrying only the length, the payload bytes appended to the caller's
buffer, the reader past the payload. -/
theorem shortBinString_read (n : Nat) (u rest buf : List Nat) (p : Nat)
    (hu : u.length = n) (hn : n < 256) :
    read_event ⟨0x55 :: n :: (u ++ rest), p⟩ buf =
      (.ok (.ShortBinString n), ⟨rest, p + 2 + n⟩, buf ++ u) := by
  rw [read_event_cons]
  show (evLenData read_u8 id Event.ShortBinString ⟨n :: (u ++ rest), p + 1⟩ buf) = _
  unfold evLenData read_u8
  rw [readScalar_eq_ok (r := ⟨n :: (u ++ rest), p + 1⟩) leNat (by simp)]
  simp only [List.take_succ_cons, List.take_zero, List.drop_succ_cons,
    List.drop_zero, leNat, Nat.mod_eq_of_lt hn, Nat.mul_zero, Nat.add_zero, id]
  rw [fill_buf_eq_ok (r := ⟨u ++ rest, p + 1 + 1⟩) (by simp only [List.length_append]; omega)]
  rw [List.take_left' hu, List.drop_left' hu]

/-! ## The claims -/

/-- C1 (corrected).  Parallel/sequential equivalence does not hold for
every byte stream: a spawned frame is decoded against a private buffer
holding exactly its declared bytes, eagerly read, so a frame whose
declared length overruns the remaining input makes the parallel decode
fail where the inline decode — which never materializes the frame —
succeeds.  On this stream (a 1-byte frame below the spawn threshold
followed by a frame declaring `FRAME_SPAWN_SIZE` bytes with only one
byte present) the parallel decode errors while the sequential decode
returns events. -/
theorem C1_counterexample :
    par_collect_events
        [0x95,1,0,0,0,0,0,0,0, 0x4e, 0x95, 0,0,2,0,0,0,0,0, 0x2e] =
      .error .ioEof ∧
    seq_collect_events
        [0x95,1,0,0,0,0,0,0,0, 0x4e, 0x95, 0,0,2,0,0,0,0,0, 0x2e] =
      .ok [.None] ∧
    par_collect_events
        [0x95,1,0,0,0,0,0,0,0, 0x4e, 0x95, 0,0,2,0,0,0,0,0, 0x2e] ≠
      seq_collect_events
        [0x95,1,0,0,0,0,0,0,0, 0x4e, 0x95, 0,0,2,0,0,0,0,0, 0x2e] :=
  ⟨by decide, by decide, by decide⟩

/-- C1 (amended).  On every well-formed stream — each frame's declared
bytes are all present, and its interior decodes to an explicit or
end-of-frame Stop without any line read racing past the frame boundary —
the whole-stream parallel decode `par_collect_events` returns the same
result, value for value and in order, as the sequential decode in which
the spawn threshold is raised to infinity so every frame is decoded
inline on the main thread. -/
theorem C1_par_eq_seq (s : List Nat)
    (hwf : wf_stream FRAME_SPAWN_SIZE s = true) :
    par_collect_events s = seq_collect_events s :=
  par_seq_equiv hwf

/-- C1 witness: a well-formed stream with a (small) frame on which both
decodes agree. -/
theorem C1_witness :
    wf_stream FRAME_SPAWN_SIZE [0x95,1,0,0,0,0,0,0,0,0x4e,0x2e] = true ∧
    par_collect_events [0x95,1,0,0,0,0,0,0,0,0x4e,0x2e] =
      seq_collect_events [0x95,1,0,0,0,0,0,0,0,0x4e,0x2e] :=
  ⟨by decide, C1_par_eq_seq [0x95,1,0,0,0,0,0,0,0,0x4e,0x2e] (by decide)⟩

/-- C2 (confirmed).  The whole-stream decode returns either a complete
event list or a single terminal error (its result type is a sum, so a
partial list never accompanies an error), and when the main loop itself
finishes cleanly but some worker failed, the error returned for the
whole decode is the first worker error in spawn order — the join loop's
order — and every already-produced event, of the main thread and of
every other worker, is discarded.  `par_collect_events` is definitionally
the generic decode at threshold `FRAME_SPAWN_SIZE`. -/
theorem C2_first_worker_error (T : Nat) (s : List Nat)
    (M : List (Nat × Event))
    (threads : List (Except Error (List (Nat × Event)))) (e : Error)
    (hrun : main_run (spawns T) ⟨s, 0⟩ = .ok (M, threads))
    (he : first_worker_error threads = some e) :
    par_collect_gen T s = .error e ∧
    par_collect_events s = par_collect_gen FRAME_SPAWN_SIZE s := by
  refine ⟨?_, rfl⟩
  unfold par_collect_gen par_collect_post
  rw [hrun]
  cases threads with
  | nil => simp [first_worker_error] at he
  | cons t ts =>
    simp only [List.isEmpty_cons, Bool.false_eq_true, if_false]
    rw [he]

/-- C2 witness: a spawned frame whose interior hits an unknown opcode;
the main thread's own decode finishes, but the whole decode returns the
worker's error and nothing else. -/
theorem C2_witness :
    par_collect_gen 2 [0x95,2,0,0,0,0,0,0,0, 0xff, 0x00, 0x2e] =
      .error (.opCode 255) ∧
    par_collect_events [0x95,2,0,0,0,0,0,0,0, 0xff, 0x00, 0x2e] =
      par_collect_gen FRAME_SPAWN_SIZE [0x95,2,0,0,0,0,0,0,0, 0xff, 0x00, 0x2e] :=
  C2_first_worker_error 2 [0x95,2,0,0,0,0,0,0,0, 0xff, 0x00, 0x2e] []
    [.error (.opCode 255)] (.opCode 255) (by decide) (by decide)

/-- C3 (confirmed).  End of input exactly where the next opcode byte is
expected is not an error: `read_event` succeeds with a synthesized
`Stop` and consumes nothing (in particular on the empty source); and a
successful `read_event` on a non-exhausted source consumes at least its
opcode byte, so each decoded event accounts for at least one consumed
byte — one event per opcode byte actually consumed. -/
theorem C3_eof_is_stop :
    (∀ (p : Nat) (buf : List Nat),
      read_event ⟨[], p⟩ buf = (.ok .Stop, ⟨[], p⟩, buf)) ∧
    (∀ (r : Reader) (buf : List Nat) (ev : Event) (r1 : Reader)
      (b1 : List Nat), read_event r buf = (.ok ev, r1, b1) → r.data ≠ [] →
        r1.data.length < r.data.length) :=
  ⟨fun p buf => read_event_nil p buf,
   fun _ _ _ _ _ h hne => (read_event_ok_shrinks h).2 hne⟩

/-- C3 witness: the empty source at position 7, and a one-byte source
whose single event consumed its opcode byte. -/
theorem C3_witness :
    read_event ⟨[], 7⟩ [] = (.ok .Stop, ⟨[], 7⟩, []) ∧
    (⟨[], 1⟩ : Reader).data.length < (⟨[0x4e], 0⟩ : Reader).data.length :=
  ⟨C3_eof_is_stop.1 7 [],
   C3_eof_is_stop.2 ⟨[0x4e], 0⟩ [] .None ⟨[], 1⟩ [] (by decide) (by decide)⟩

/-- C4 (corrected).  A line-delimited payload is read with
`read_until`, which simply returns the bytes available when end of
input arrives before the newline — no I/O error: here a STRING (0x53)
payload truncated mid-line decodes successfully.  The claim's "every
payload-bearing opcode ... line-delimited alike" is therefore false. -/
theorem C4_counterexample :
    (read_event ⟨[0x53, 97, 98], 0⟩ []).1 = .ok (.String 2) :=
  by decide

/-- C4 (amended).  For the eagerly read payloads the claim holds: a
stream that ends inside the fixed-width scalar payload or the length
prefix of any fixed-width or length-prefixed opcode, or inside the
declared data bytes of any length-prefixed opcode, makes `read_event`
return a hard I/O error. -/
theorem C4_truncated_payload :
    (∀ x ∈ eagerOps, ∀ (d : List Nat) (p : Nat) (buf : List Nat),
      d.length < x.2 →
        (read_event ⟨x.1 :: d, p⟩ buf).1 = .error .ioEof) ∧
    (∀ x ∈ lenPrefixOps, ∀ (pre rest : List Nat) (p : Nat) (buf : List Nat),
      pre.length = x.2.1 → rest.length < x.2.2 pre →
        (read_event ⟨x.1 :: (pre ++ rest), p⟩ buf).1 = .error .ioEof) := by
  constructor
  · intro x hx
    fin_cases hx <;> intro d p buf h <;> rw [read_event_cons] <;>
      first
        | exact evFixed_trunc _ _ _ _ _ h
        | exact evLenData_head_trunc _ _ _ _ _ _ h
        | exact evLongBin_head_trunc _ _ _ _ _ _ h
  · intro x hx
    simp only [lenPrefixOps, List.mem_cons, List.not_mem_nil, or_false] at hx
    rcases hx with rfl | rfl | rfl | rfl | rfl | rfl | rfl | rfl | rfl | rfl | rfl <;>
      intro pre rest p buf hpre h <;> rw [read_event_cons] <;>
      first
        | exact evLenData_data_trunc _ _ _ _ _ _ hpre h
        | exact evLongBin_data_trunc _ _ _ _ _ _ hpre h

/-- C4 witness: a 4-byte binary int with only two payload bytes, and a
SHORT_BINSTRING declaring 5 bytes with only two present. -/
theorem C4_witness :
    (read_event ⟨[0x4a, 1, 2], 0⟩ []).1 = .error .ioEof ∧
    (read_event ⟨[0x55, 5, 97, 98], 0⟩ []).1 = .error .ioEof :=
  ⟨C4_truncated_payload.1 (0x4a, 4) (by decide) [1, 2] 0 [] (by decide),
   C4_truncated_payload.2 (0x55, 1, leNat)
     (by simp only [lenPrefixOps]
         exact List.mem_cons_of_mem _ (List.mem_cons_of_mem _
           (List.mem_cons_of_mem _ (List.mem_cons_self _ _))))
     [5] [97, 98] 0 [] (by decide) (by decide)⟩

/-- C5 (confirmed).  Reading a frame of declared length `L` advances
the main reader's cursor by exactly `L` bytes past the frame's start
(the frame's bytes are read eagerly into the private buffer before any
interior opcode is decoded, so the advance is independent of the
interior), and the private reader holds exactly those `L` bytes
starting at the frame's start position. -/
theorem C5_frame_advance (len : Nat) (r fr r2 : Reader)
    (h : frame_reader len r = (.ok fr, r2)) :
    r2.pos = r.pos + len ∧ r2.data = r.data.drop len ∧
      fr.pos = r.pos ∧ fr.data = r.data.take len ∧ fr.data.length = len := by
  obtain ⟨hle, hfr, hr2⟩ := frame_reader_ok h
  subst hfr hr2
  exact ⟨rfl, rfl, rfl, rfl, by simp only [List.length_take]; omega⟩

/-- C5 witness: a 2-byte frame in a 3-byte source. -/
theorem C5_witness :
    (⟨[3], 7⟩ : Reader).pos = (⟨[1,2,3], 5⟩ : Reader).pos + 2 ∧
    (⟨[3], 7⟩ : Reader).data = (⟨[1,2,3], 5⟩ : Reader).data.drop 2 ∧
    (⟨[1,2], 5⟩ : Reader).pos = (⟨[1,2,3], 5⟩ : Reader).pos ∧
    (⟨[1,2], 5⟩ : Reader).data = (⟨[1,2,3], 5⟩ : Reader).data.take 2 ∧
    (⟨[1,2], 5⟩ : Reader).data.length = 2 :=
  C5_frame_advance 2 ⟨[1,2,3], 5⟩ ⟨[1,2], 5⟩ ⟨[3], 7⟩ (by decide)

/-- C6 (confirmed).  When the INT (0x49) opcode's line payload is the
literal two-character string "01" (respectively "00"), `read_event`
returns `Bool true` (respectively `Bool false`) — not `Int 1`/`Int 0`,
although the generic integer parse would accept both strings, so the
boolean encodings are detected before integer parsing. -/
theorem C6_legacy_bool (d : List Nat) (p : Nat) (buf : List Nat) :
    (lineSplit d = [48, 49] →
      read_event ⟨0x49 :: d, p⟩ buf = (.ok (.Bool true), ⟨d.drop 2, p + 3⟩, buf)) ∧
    (lineSplit d = [48, 48] →
      read_event ⟨0x49 :: d, p⟩ buf = (.ok (.Bool false), ⟨d.drop 2, p + 3⟩, buf)) := by
  constructor <;> intro h <;> rw [read_event_cons] <;>
    show evIntDec ⟨d, p + 1⟩ buf = _ <;>
    simp only [evIntDec, fill_line_eq, List.drop_left, List.take_left, h,
      List.length_cons, List.length_nil] <;>
    norm_num
/-- C6 witness: the two boolean encodings at end of input. -/
theorem C6_witness :
    read_event ⟨[0x49, 48, 49], 0⟩ [] = (.ok (.Bool true), ⟨[], 3⟩, []) ∧
    read_event ⟨[0x49, 48, 48], 0⟩ [] = (.ok (.Bool false), ⟨[], 3⟩, []) :=
  ⟨(C6_legacy_bool [48, 49] 0 []).1 (by decide),
   (C6_legacy_bool [48, 48] 0 []).2 (by decide)⟩

/-! ## Buffer restoration on successful parses -/

/-- A successful INT (0x49) decode truncates the scratch buffer back. -/
theorem evIntDec_ok_buf {r : Reader} {buf : List Nat} {ev : Event}
    {r1 : Reader} {b1 : List Nat}
    (h : evIntDec r buf = (.ok ev, r1, b1)) : b1 = buf := by
  simp only [evIntDec, fill_line_eq, List.drop_left, List.take_left] at h
  split at h
  · exact (congrArg (fun x => x.2.2) h).symm
  · split at h
    · exact (congrArg (fun x => x.2.2) h).symm
    · split at h
      · exact (congrArg (fun x => x.2.2) h).symm
      · simp at h

/-- A successful LONG (0x4c) decode truncates the scratch buffer back. -/
theorem evLongDec_ok_buf {r : Reader} {buf : List Nat} {ev : Event}
    {r1 : Reader} {b1 : List Nat}
    (h : evLongDec r buf = (.ok ev, r1, b1)) : b1 = buf := by
  simp only [evLongDec, fill_line_eq] at h
  by_cases hL : lineSplit r.data = []
  · rw [hL, List.append_nil] at h
    have hd1 : buf.dropLast.drop buf.length = [] :=
      List.drop_eq_nil_of_le (by simp [List.length_dropLast])
    have hd2 : buf.drop buf.length = [] := List.drop_eq_nil_of_le le_rfl
    by_cases hg : buf.getLast? = some 76
    · rw [if_pos hg, hd1, show atoi_i64 [] = none from rfl] at h
      simp at h
    · rw [if_neg hg, hd2, show atoi_i64 [] = none from rfl] at h
      simp at h
  · rw [List.getLast?_append_of_ne_nil buf hL] at h
    by_cases h76 : (lineSplit r.data).getLast? = some 76
    · rw [if_pos h76, List.dropLast_append_of_ne_nil buf hL,
        List.drop_left, List.take_left] at h
      split at h
      · exact (congrArg (fun x => x.2.2) h).symm
      · simp at h
    · rw [if_neg h76, List.drop_left, List.take_left] at h
      split at h
      · exact (congrArg (fun x => x.2.2) h).symm
      · simp at h

/-- A successful FLOAT (0x46) decode truncates the scratch buffer
back. -/
theorem evFloatDec_ok_buf {r : Reader} {buf : List Nat} {ev : Event}
    {r1 : Reader} {b1 : List Nat}
    (h : evFloatDec r buf = (.ok ev, r1, b1)) : b1 = buf := by
  simp only [evFloatDec, fill_line_eq, List.drop_left, List.take_left] at h
  split at h
  · split at h
    · exact (congrArg (fun x => x.2.2) h).symm
    · simp at h
  · simp at h

/-- A successful GET/PUT decode truncates the scratch buffer back. -/
theorem evMemoDec_ok_buf {code : Nat} {mk : Int → Event} {r : Reader}
    {buf : List Nat} {ev : Event} {r1 : Reader} {b1 : List Nat}
    (h : evMemoDec code mk r buf = (.ok ev, r1, b1)) : b1 = buf := by
  simp only [evMemoDec, fill_line_eq, List.drop_left, List.take_left] at h
  split at h
  · exact (congrArg (fun x => x.2.2) h).symm
  · simp at h

/-- A successful LONG1/LONG4 decode truncates the scratch buffer
back. -/
theorem evLongBin_ok_buf {α : Type} {code : Nat}
    {rdLen : Reader → Except Error α × Reader} {tc : α → Nat} {r : Reader}
    {buf : List Nat} {ev : Event} {r1 : Reader} {b1 : List Nat}
    (h : evLongBin code rdLen tc r buf = (.ok ev, r1, b1)) : b1 = buf := by
  unfold evLongBin at h
  rcases hrd : rdLen r with ⟨res, rA⟩
  rw [hrd] at h
  cases res with
  | error e => simp at h
  | ok len =>
    simp only at h
    rcases hfb : fill_buf (tc len) rA buf with ⟨res2, rB, b2⟩
    rw [hfb] at h
    cases res2 with
    | error e => simp at h
    | ok u =>
      obtain ⟨-, -, hb2⟩ := fill_buf_ok hfb
      subst hb2
      simp only at h
      rw [List.take_left] at h
      split at h
      · exact (congrArg (fun x => x.2.2) h).symm
      · simp at h

/-- C7 (confirmed; the `atoi` crate is modelled from the spec: it
accepts exactly an optional sign followed by a non-empty run of ASCII
digits spanning the whole slice, within the target type's range, and
returns `None` otherwise).  For every decimal-text opcode — decimal
INT, decimal LONG, decimal FLOAT, the text memo ids GET and PUT, and
the length-prefixed binary longs LONG1/LONG4 — a payload the number
parser rejects (for example one containing non-digit characters such as
"12abc") makes `read_event` return a decode error: the payload is never
truncated at the first non-digit nor defaulted. -/
theorem C7_non_numeric_is_error :
    (∀ (d : List Nat) (p : Nat) (buf : List Nat),
      lineSplit d ≠ [48, 49] → lineSplit d ≠ [48, 48] →
      atoi_i32 (lineSplit d) = none →
      (read_event ⟨0x49 :: d, p⟩ buf).1 = .error (.protocol 0x49)) ∧
    (∀ (d : List Nat) (p : Nat),
      atoi_i64 (if (lineSplit d).getLast? = some 76 then
        (lineSplit d).dropLast else lineSplit d) = none →
      (read_event ⟨0x4c :: d, p⟩ []).1 = .error (.protocol 0x4c)) ∧
    (∀ (d : List Nat) (p : Nat) (buf : List Nat),
      validUtf8 (lineSplit d) = true → parseF64 (lineSplit d) = none →
      (read_event ⟨0x46 :: d, p⟩ buf).1 = .error (.protocol 0x46)) ∧
    (∀ (d : List Nat) (p : Nat) (buf : List Nat),
      atoi_i32 (lineSplit d) = none →
      (read_event ⟨0x67 :: d, p⟩ buf).1 = .error (.protocol 0x67)) ∧
    (∀ (d : List Nat) (p : Nat) (buf : List Nat),
      atoi_i32 (lineSplit d) = none →
      (read_event ⟨0x70 :: d, p⟩ buf).1 = .error (.protocol 0x70)) ∧
    (∀ (len : Nat) (u rest : List Nat) (p : Nat) (buf : List Nat),
      len < 256 → u.length = len → atoi_i64 u = none →
      (read_event ⟨0x8a :: len :: (u ++ rest), p⟩ buf).1 =
        .error (.protocol 0x8a)) ∧
    (∀ (pre u rest : List Nat) (p : Nat) (buf : List Nat),
      pre.length = 4 → u.length = castUsize (i32val pre) → atoi_i64 u = none →
      (read_event ⟨0x8b :: (pre ++ (u ++ rest)), p⟩ buf).1 =
        .error (.protocol 0x8a)) := by
  refine ⟨?_, ?_, ?_, ?_, ?_, ?_, ?_⟩
  · intro d p buf h1 h2 h3
    rw [read_event_cons]
    show (evIntDec ⟨d, p + 1⟩ buf).1 = _
    simp only [evIntDec, fill_line_eq, List.drop_left, h1, h2, h3,
      if_false]
  · intro d p h
    rw [read_event_cons]
    show (evLongDec ⟨d, p + 1⟩ []).1 = _
    simp only [evLongDec, fill_line_eq, List.nil_append, List.length_nil,
      List.drop_zero, h]
  · intro d p buf hU hP
    rw [read_event_cons]
    show (evFloatDec ⟨d, p + 1⟩ buf).1 = _
    simp only [evFloatDec, fill_line_eq, List.drop_left, hU, hP, if_true]
  · intro d p buf h
    rw [read_event_cons]
    show (evMemoDec 0x67 Event.Get ⟨d, p + 1⟩ buf).1 = _
    simp only [evMemoDec, fill_line_eq, List.drop_left, h]
  · intro d p buf h
    rw [read_event_cons]
    show (evMemoDec 0x70 Event.Put ⟨d, p + 1⟩ buf).1 = _
    simp only [evMemoDec, fill_line_eq, List.drop_left, h]
  · intro len u rest p buf hlen hu h
    rw [read_event_cons]
    show (evLongBin 0x8a read_u8 id ⟨len :: (u ++ rest), p + 1⟩ buf).1 = _
    unfold evLongBin read_u8
    rw [readScalar_eq_ok (r := ⟨len :: (u ++ rest), p + 1⟩) leNat (by simp)]
    simp only [List.take_succ_cons, List.take_zero, List.drop_succ_cons,
      List.drop_zero, leNat, Nat.mod_eq_of_lt hlen, Nat.mul_zero,
      Nat.add_zero, id]
    rw [fill_buf_eq_ok (r := ⟨u ++ rest, p + 1 + 1⟩)
      (by simp only [List.length_append]; omega)]
    simp only [List.take_left' hu, List.drop_left' hu, List.drop_left, h]
  · intro pre u rest p buf hpre hu h
    rw [read_event_cons]
    show (evLongBin 0x8a read_i32 castUsize ⟨pre ++ (u ++ rest), p + 1⟩ buf).1 = _
    unfold evLongBin read_i32
    rw [readScalar_eq_ok (r := ⟨pre ++ (u ++ rest), p + 1⟩) i32val
      (by simp only [List.length_append]; omega)]
    simp only [List.take_left' hpre, List.drop_left' hpre]
    rw [fill_buf_eq_ok (r := ⟨u ++ rest, p + 1 + 4⟩)
      (by simp only [List.length_append]; omega)]
    simp only [List.take_left' hu, List.drop_left' hu, List.drop_left, h]

/-- C7 witness: the payload "12abc" rejected on every decimal-text
opcode. -/
theorem C7_witness :
    (read_event ⟨0x49 :: [49,50,97,98,99], 0⟩ []).1 = .error (.protocol 0x49) ∧
    (read_event ⟨0x4c :: [49,50,97,98,99], 0⟩ []).1 = .error (.protocol 0x4c) ∧
    (read_event ⟨0x46 :: [49,50,97,98,99], 0⟩ []).1 = .error (.protocol 0x46) ∧
    (read_event ⟨0x67 :: [49,50,97,98,99], 0⟩ []).1 = .error (.protocol 0x67) ∧
    (read_event ⟨0x70 :: [49,50,97,98,99], 0⟩ []).1 = .error (.protocol 0x70) ∧
    (read_event ⟨0x8a :: 5 :: ([49,50,97,98,99] ++ []), 0⟩ []).1 =
      .error (.protocol 0x8a) ∧
    (read_event ⟨0x8b :: ([5,0,0,0] ++ ([49,50,97,98,99] ++ [])), 0⟩ []).1 =
      .error (.protocol 0x8a) :=
  ⟨C7_non_numeric_is_error.1 [49,50,97,98,99] 0 [] (by decide) (by decide)
     (by decide),
   C7_non_numeric_is_error.2.1 [49,50,97,98,99] 0 (by decide),
   C7_non_numeric_is_error.2.2.1 [49,50,97,98,99] 0 [] (by decide) (by decide),
   C7_non_numeric_is_error.2.2.2.1 [49,50,97,98,99] 0 [] (by decide),
   C7_non_numeric_is_error.2.2.2.2.1 [49,50,97,98,99] 0 [] (by decide),
   C7_non_numeric_is_error.2.2.2.2.2.1 5 [49,50,97,98,99] [] 0 [] (by decide)
     (by decide) (by decide),
   C7_non_numeric_is_error.2.2.2.2.2.2 [5,0,0,0] [49,50,97,98,99] [] 0 []
     (by decide) (by decide) (by decide)⟩

/-- C8 (confirmed).  The 8-byte float opcode (0x47) interprets its
payload big-endian — the opposite endianness from all the integer
reads — so the payload bytes 3f e1 47 ae 14 7a e1 48 decode to
`Float 0x3FE147AE147AE148`, and that bit pattern is exactly the IEEE-754
double nearest to 0.54: its value is within 2 ^ (-54) of 27 / 50 and
every other multiple of 2 ^ (-53) — in particular every other binary64
value in the binade [1/2, 1) that contains 0.54 — is strictly farther
away. -/
theorem C8_big_endian_float :
    read_event ⟨[0x47, 0x3f, 0xe1, 0x47, 0xae, 0x14, 0x7a, 0xe1, 0x48], 0⟩ [] =
      (.ok (.Float 0x3FE147AE147AE148), ⟨[], 9⟩, []) ∧
    binary64Val 0x3FE147AE147AE148 = 4863887597560136 / 2 ^ 53 ∧
    |binary64Val 0x3FE147AE147AE148 - 27 / 50| < 1 / 2 ^ 54 ∧
    ∀ k : Nat, k ≠ 4863887597560136 →
      |binary64Val 0x3FE147AE147AE148 - 27 / 50| <
        |(k : ℚ) / 2 ^ 53 - 27 / 50| := by
  have hval : binary64Val 0x3FE147AE147AE148 = (4863887597560136 : ℚ) / 2 ^ 53 := by
    norm_num [binary64Val]
  have habs : |binary64Val 0x3FE147AE147AE148 - 27 / 50| =
      16 / (50 * 2 ^ 53) := by
    rw [hval, show (4863887597560136 : ℚ) / 2 ^ 53 - 27 / 50 =
      16 / (50 * 2 ^ 53) by norm_num]
    rw [abs_of_pos (by norm_num)]
  refine ⟨by decide, hval, by rw [habs]; norm_num, ?_⟩
  intro k hk
  have hkq : (k : ℤ) ≠ 4863887597560136 := by
    intro he
    exact hk (by exact_mod_cast he)
  have hint : (34 : ℤ) ≤ |50 * (k : ℤ) - 243194379878006784| := by
    rcases lt_or_gt_of_ne hkq with hlt | hgt
    · have h1 : 50 * (k : ℤ) - 243194379878006784 ≤ -34 := by omega
      calc (34 : ℤ) ≤ -(50 * (k : ℤ) - 243194379878006784) := by omega
        _ ≤ |50 * (k : ℤ) - 243194379878006784| := neg_le_abs _
    · have h1 : (34 : ℤ) ≤ 50 * (k : ℤ) - 243194379878006784 := by omega
      exact h1.trans (le_abs_self _)
  have hrw : (k : ℚ) / 2 ^ 53 - 27 / 50 =
      ((50 * (k : ℤ) - 243194379878006784 : ℤ) : ℚ) / (50 * 2 ^ 53) := by
    push_cast
    ring
  rw [habs, hrw, abs_div, abs_of_pos (show (0 : ℚ) < 50 * 2 ^ 53 by norm_num)]
  rw [show |((50 * (k : ℤ) - 243194379878006784 : ℤ) : ℚ)| =
    ((|50 * (k : ℤ) - 243194379878006784| : ℤ) : ℚ) by rw [Int.cast_abs]]
  rw [div_lt_div_iff_of_pos_right (by norm_num)]
  calc (16 : ℚ) < 34 := by norm_num
    _ ≤ _ := by exact_mod_cast hint

/-- C8 witness: the multiple 0 of 2 ^ (-53) is strictly farther from
27/50 than the decoded value. -/
theorem C8_witness :
    |binary64Val 0x3FE147AE147AE148 - 27 / 50| <
      |((0 : Nat) : ℚ) / 2 ^ 53 - 27 / 50| :=
  C8_big_endian_float.2.2.2 0 (by decide)

/-- C9 (corrected).  The scratch buffer is truncated back to its
pre-call length only on the successful paths: a failed number parse
returns through `?`/`ok_or` before the `truncate`, leaving the read
line in the caller's buffer.  Here a non-numeric INT payload leaves
byte 97 appended. -/
theorem C9_counterexample :
    read_event ⟨[0x49, 97], 0⟩ [5] = (.error (.protocol 0x49), ⟨[], 2⟩, [5, 97]) ∧
    (read_event ⟨[0x49, 97], 0⟩ [5]).2.2 ≠ [5] :=
  ⟨by decide, by decide⟩

/-- The opcodes that use the caller's buffer as transient scratch space
for a number parse (decimal ints, decimal longs, decimal floats, text
memo ids, binary longs). -/
def textScratchOps : List Nat := [0x49, 0x4c, 0x46, 0x67, 0x70, 0x8a, 0x8b]

/-- C9 (amended).  For every numeric/text-encoded opcode, every
`read_event` call that returns `Ok` truncates the caller's scratch
buffer back to its pre-call contents before returning — no trace of the
parsed payload is left.  (On error paths the truncation is skipped;
see the counterexample.) -/
theorem C9_buffer_restored :
    ∀ op ∈ textScratchOps, ∀ (d : List Nat) (p : Nat) (buf : List Nat)
      (ev : Event) (r1 : Reader) (b1 : List Nat),
      read_event ⟨op :: d, p⟩ buf = (.ok ev, r1, b1) → b1 = buf := by
  intro op hop d p buf ev r1 b1 h
  rw [read_event_cons] at h
  fin_cases hop
  · exact evIntDec_ok_buf h
  · exact evLongDec_ok_buf h
  · exact evFloatDec_ok_buf h
  · exact evMemoDec_ok_buf h
  · exact evMemoDec_ok_buf h
  · exact evLongBin_ok_buf h
  · exact evLongBin_ok_buf h

/-- C9 witness: a successful decimal INT decode leaves the one-byte
buffer exactly as it was. -/
theorem C9_witness :
    read_event ⟨[0x49, 49, 50], 0⟩ [7] = (.ok (.Int 12), ⟨[], 3⟩, [7]) ∧
    ([7] : List Nat) = [7] :=
  ⟨by decide, C9_buffer_restored 0x49 (by decide) [49, 50] 0 [7] (.Int 12)
    ⟨[], 3⟩ [7] (by decide)⟩

/-- C10 (confirmed).  The whole-stream decode hands `read_event` an
empty scratch buffer at every iteration (main loop and workers alike)
and keeps only the event metadata, so the payload bytes of a
string/bytes opcode are unrecoverable from its result: replacing a
SHORT_BINSTRING payload by any other payload of the same length leaves
the whole-stream result and any worker's result unchanged.  Only the
one-event-at-a-time interface exposes the payload, by appending it to
the caller's buffer. -/
theorem C10_payload_discarded (T n : Nat) (u v rest : List Nat) (p : Nat)
    (hu : u.length = n) (hv : v.length = n) (hn : n < 256) :
    par_collect_gen T (0x55 :: n :: (u ++ rest)) =
      par_collect_gen T (0x55 :: n :: (v ++ rest)) ∧
    worker_run ⟨0x55 :: n :: u, p⟩ = worker_run ⟨0x55 :: n :: v, p⟩ ∧
    (read_event ⟨0x55 :: n :: (u ++ rest), p⟩ []).2.2 = u := by
  refine ⟨?_, ?_, ?_⟩
  · have hxu := shortBinString_read n u rest [] 0 hu hn
    have hxv := shortBinString_read n v rest [] 0 hv hn
    unfold par_collect_gen
    rw [main_run_push hxu (by simp) rfl, main_run_push hxv (by simp) rfl]
  · have hyu := shortBinString_read n u [] [] p hu hn
    have hyv := shortBinString_read n v [] [] p hv hn
    rw [List.append_nil] at hyu hyv
    rw [worker_run_step hyu (by simp), worker_run_step hyv (by simp)]
  · rw [shortBinString_read n u rest [] p hu hn]
    simp

/-- C10 witness: two different 2-byte payloads, same decode results;
the single-event interface shows the payload. -/
theorem C10_witness :
    par_collect_gen 7 [0x55, 2, 97, 98, 0x2e] =
      par_collect_gen 7 [0x55, 2, 99, 100, 0x2e] ∧
    worker_run ⟨[0x55, 2, 97, 98], 3⟩ = worker_run ⟨[0x55, 2, 99, 100], 3⟩ ∧
    (read_event ⟨[0x55, 2, 97, 98, 0x2e], 3⟩ []).2.2 = [97, 98] :=
  C10_payload_discarded 7 2 [97, 98] [99, 100] [0x2e] 3 (by decide) (by decide)
    (by decide)

end QuickPickle
